import Mathlib

/-!
Shallow embedding of the extensive-form game engine in
`src/sage/game_theory/extensive_form_game.py` (classes `ExtensiveFormGame`,
`EFG_Node`, `EFG_Leaf`, `EFG_Player`), together with theorems settling the
frozen claims about it.

Modelling conventions:
* Python objects are identified by a natural-number `id` field; the classes
  `EFG_Player`, `EFG_Node`, `EFG_Leaf` define no `__eq__`, so Python `==` on
  them is object identity, which coincides with structural equality here
  because distinct objects carry distinct ids.
* Python's `sorted`/`list.sort` is a stable sort by key; a stable sort is
  uniquely determined by the (total, transitive) key preorder, so
  `List.insertionSort` (which is stable) models it exactly.
* Python dicts are modelled as association lists of their items; exceptions
  are modelled with `Except String`, carrying the message of the raise.
-/

/-- Python 2 compares strings lexicographically byte by byte; `String`'s
builtin order does not reduce in the kernel, so the embedding uses this
equivalent computable comparison for every sort key. -/
def char_list_le : List Char → List Char → Bool
  | [], _ => true
  | _ :: _, [] => false
  | a :: as, b :: bs =>
    if a.toNat < b.toNat then true
    else if b.toNat < a.toNat then false
    else char_list_le as bs

/-- Lexicographic string comparison (Python 2 `str` order). -/
def str_le (a b : String) : Bool := char_list_le a.data b.data

/-- The `EFG_Player` class: a named identity.  The `id` field models Python
object identity.  The class defines `__hash__` (delegating to the name's
hash) but no `__eq__`, so `==` on players is object identity. -/
structure EFG_Player where
  id : Nat
  name : String
deriving DecidableEq

/-- `EFG_Player.__hash__`: `hash(self.name)`. -/
def player_hash (p : EFG_Player) : UInt64 := String.hash p.name

/-- Python's stable `sorted(..., key=attrgetter('name'))` on players. -/
def sortByName (l : List EFG_Player) : List EFG_Player :=
  l.insertionSort (fun a b => str_le a.name b.name = true)

/-- The `EFG_Leaf` class.  `payoffs` holds the items of the payoff dict;
`name = none` models the `False` (unnamed) sentinel; `players` and
`utilities` are the derived fields computed once by `__init__`. -/
structure EFG_Leaf where
  payoffs : List (EFG_Player × Int)
  name : Option String
  players : List EFG_Player
  parent : Option Nat
  utilities : List Int
deriving DecidableEq

/-- Lookup in the payoff dict (`EFG_Leaf.__getitem__`). -/
def payoff_lookup (ps : List (EFG_Player × Int)) (p : EFG_Player) : Option Int :=
  (ps.find? (fun kv => kv.1 == p)).map Prod.snd

/-- `EFG_Leaf.__init__`: stores the payoff dict, computes `players` as the
keys sorted by name, `utilities` as the payoff values in sorted player
order, and initialises `parent` to `False` (`none`).  Payoff values are
modelled as integers (the claims do not involve the numeric coercions). -/
def mk_leaf (payoffs : List (EFG_Player × Int)) (name : Option String) : EFG_Leaf :=
  let ps := sortByName (payoffs.map Prod.fst)
  { payoffs := payoffs
    name := name
    players := ps
    parent := none
    utilities := (sortByName ps).map (fun p => (payoff_lookup payoffs p).getD 0) }

/-- `EFG_Leaf.__setitem__`: `self.payoffs[key] = value`.  Only the payoff
dict is touched. -/
def leaf_setitem (l : EFG_Leaf) (k : EFG_Player) (v : Int) : EFG_Leaf :=
  { l with payoffs :=
      if l.payoffs.any (fun kv => kv.1 == k) then
        l.payoffs.map (fun kv => if kv.1 == k then (kv.1, v) else kv)
      else l.payoffs ++ [(k, v)] }

/-- `EFG_Leaf.__delitem__`: `self.payoffs.pop(key, None)`.  Only the payoff
dict is touched. -/
def leaf_delitem (l : EFG_Leaf) (k : EFG_Player) : EFG_Leaf :=
  { l with payoffs := l.payoffs.filter (fun kv => !(kv.1 == k)) }

/-- The `EFG_Node` class as it occurs inside a constructed game: built from a
`node_input` dict mapping action labels to children (children referenced by
entity id), with an owning player and a (post-naming) name.  `id` models
object identity. -/
structure GNode where
  id : Nat
  name : String
  player : EFG_Player
  node_input : List (String × Nat)
deriving DecidableEq

/-- `node.actions`: the keys of the `node_input` dict, in order. -/
def GNode.actions (n : GNode) : List String := n.node_input.map Prod.fst

/-- `node.children`: the values of the `node_input` dict, in order. -/
def GNode.children (n : GNode) : List Nat := n.node_input.map Prod.snd

/-- `tuple(sorted(node.actions))` as used by `set_info_set`. -/
def sorted_actions (n : GNode) : List String :=
  n.actions.insertionSort (fun a b => str_le a b = true)

/-- An `ExtensiveFormGame` after construction: the fixed node list, the
fixed player list, and the mutable `info_sets` collection. -/
structure Game where
  nodes : List GNode
  players : List EFG_Player
  info_sets : List (List GNode)
deriving DecidableEq

/-- The sort key used for `self.info_sets.sort(key=lambda x: x[0].name)`.
Python indexes `x[0]`; information sets are never empty (see the partition
invariant), so the `""` default for `[]` is never exercised. -/
def is_key (s : List GNode) : String :=
  match s with
  | [] => ""
  | nd :: _ => nd.name

/-- `self.info_sets.sort(key=lambda x: x[0].name)` (stable). -/
def sort_info_sets (l : List (List GNode)) : List (List GNode) :=
  l.insertionSort (fun a b => str_le (is_key a) (is_key b) = true)

/-- `sorted(node_list, key=lambda x: x.name)` (stable). -/
def sort_nodes (l : List GNode) : List GNode :=
  l.insertionSort (fun a b => str_le a.name b.name = true)

/-- The player-collection part of `_check_node_names_and_find_players`:
append each node's player if not already present, then
`self.players.sort(key=attrgetter('name'))`. -/
def find_players (nodes : List GNode) : List EFG_Player :=
  sortByName ((nodes.map GNode.player).foldl
    (fun acc p => if acc.contains p then acc else acc ++ [p]) [])

/-- `ExtensiveFormGame.__init__` on a valid root, after `_grow_tree` and the
naming pass: `nodes` is the validated node list and
`info_sets = sorted([[node] for node in self.nodes], key=...)`. -/
def mkGame (nodes : List GNode) : Game :=
  { nodes := nodes
    players := find_players nodes
    info_sets := sort_info_sets (nodes.map (fun nd => [nd])) }

/-- `any(node in info_set for info_set in iss)`: whether some information
set of the collection contains the node. -/
def covers (iss : List (List GNode)) (x : GNode) : Bool :=
  iss.any (fun s => s.contains x)

/-- The re-singleton pass of `set_info_set`: scan `self.nodes` in order and
append a fresh singleton for every node not covered by the collection as
grown so far. -/
def resingle (nodes : List GNode) (acc : List (List GNode)) : List (List GNode) :=
  nodes.foldl (fun acc nd => if covers acc nd then acc else acc ++ [[nd]]) acc

/-- `ExtensiveFormGame.set_info_set(node_list)`: check that all nodes share
one player and one sorted action tuple (else raise, mutating nothing);
remove every information set containing an argument node; append the
argument nodes sorted by name as one new set; re-singleton every game node
left uncovered (scanning `self.nodes` in order against the growing
collection); finally re-sort the whole collection. -/
def set_info_set (g : Game) (node_list : List GNode) : Except String Game :=
  if (node_list.map GNode.player).dedup.length ≠ 1 then
    .error "All nodes in the same information set must have the same players."
  else if (node_list.map sorted_actions).dedup.length ≠ 1 then
    .error "All nodes in the same information set must have the same actions."
  else
    let removed := g.info_sets.filter (fun s => !(node_list.any (fun nd => s.contains nd)))
    let appended := removed ++ [sort_nodes node_list]
    .ok { g with info_sets := sort_info_sets (resingle g.nodes appended) }

/-- The Python state after calling `set_info_set`: on a raise the object is
left unchanged (all checks precede all mutation in the source). -/
def set_info_set_state (g : Game) (node_list : List GNode) : Game :=
  match set_info_set g node_list with
  | .ok g' => g'
  | .error _ => g

/-- `ExtensiveFormGame.remove_info_set(node_list)`:
`self.info_sets.remove(node_list)` (first occurrence; `ValueError` if
absent), then one singleton per argument node, then re-sort. -/
def remove_info_set (g : Game) (node_list : List GNode) : Except String Game :=
  if g.info_sets.contains node_list then
    .ok { g with info_sets :=
      sort_info_sets ((g.info_sets.erase node_list) ++ node_list.map (fun nd => [nd])) }
  else .error "list.remove(x): x not in list"

/-- `ExtensiveFormGame.perfect_info()`: list equality between the current
`info_sets` and the freshly sorted collection of singletons. -/
def perfect_info (g : Game) : Bool :=
  g.info_sets == sort_info_sets (g.nodes.map (fun nd => [nd]))

/-- `ExtensiveFormGame.obtain_nash()`: raise if gambit is missing, raise if
there are more than two players, otherwise export via `_sage_to_gambit` and
run the external LCP solver (both out of scope; the `.ok` branch stands for
that external interaction). -/
def obtain_nash (gambitInstalled : Bool) (g : Game) : Except String String :=
  if gambitInstalled = false then
    .error "gambit is not installed"
  else if 2 < g.players.length then
    .error "Nash equilibrium for games with more than 2 players have not been implemented yet."
  else .ok "exported to gambit and solved by ExternalLCPSolver"

/-- `kid in info_set_2`: membership of a child entity (referenced by id) in
a list of nodes, by object identity. -/
def member_by_id (kid : Nat) (s : List GNode) : Bool :=
  s.any (fun m => m.id == kid)

/-- `any(kid in info_set_2 for nd in info_set_1 for kid in nd.children)`. -/
def edge_between (is1 is2 : List GNode) : Bool :=
  is1.any (fun nd => nd.children.any (fun kid => member_by_id kid is2))

/-- `ExtensiveFormGame._grow_info_set_graph_dictionary()`: for each
information set, the list of other information sets reached by a child
edge; a key appears in the dict only if its list is nonempty (the source
assigns `d[tuple(info_set_1)]` inside the inner `if`). -/
def grow_info_set_graph_dictionary (g : Game) : List (List GNode × List (List GNode)) :=
  (g.info_sets.map (fun is1 =>
    (is1, g.info_sets.filter (fun is2 => is2 != is1 && edge_between is1 is2)))).filter
    (fun pr => !pr.2.isEmpty)

/-- Whether the derived information-set graph dictionary records a directed
edge from `A` to `B`. -/
def info_set_graph_has_edge (g : Game) (A B : List GNode) : Bool :=
  match (grow_info_set_graph_dictionary g).find? (fun pr => pr.1 == A) with
  | some pr => pr.2.contains B
  | none => false

/-- Dict lookup `sage_node.node_input[action]`. -/
def node_input_lookup (ni : List (String × Nat)) (a : String) : Option Nat :=
  (ni.find? (fun kv => kv.1 == a)).map Prod.snd

/-- `ExtensiveFormGame._sage_to_gambit_get_gambit_child_index`: iterate over
`enumerate(parent.actions)` and assign `child_index = i` on every action
whose `node_input` entry is the child (the loop has no `break`, so a later
match overwrites an earlier one); `none` models the `NameError` raised when
no action matches (`child_index` is then unbound). -/
def get_gambit_child_index (ni : List (String × Nat)) (child : Nat) : Option Nat :=
  ((ni.map Prod.fst).enum).foldl
    (fun acc ia => if node_input_lookup ni ia.2 == some child then some ia.1 else acc) none

/-- The states reachable from a game `g0` by successful `set_info_set` /
`remove_info_set` calls whose argument lists consist of distinct nodes of
the game. -/
inductive Reachable : Game → Game → Prop
  | refl (g : Game) : Reachable g g
  | set {g0 g g' : Game} {ns : List GNode} (h : Reachable g0 g) (hnd : ns.Nodup)
      (hsub : ∀ n ∈ ns, n ∈ g.nodes) (hok : set_info_set g ns = .ok g') : Reachable g0 g'
  | rem {g0 g g' : Game} {ns : List GNode} (h : Reachable g0 g) (hnd : ns.Nodup)
      (hsub : ∀ n ∈ ns, n ∈ g.nodes) (hok : remove_info_set g ns = .ok g') : Reachable g0 g'

/-- How many information sets of the collection contain the node `x`. -/
def count_sets_with (iss : List (List GNode)) (x : GNode) : Nat :=
  iss.countP (fun s => s.contains x)

/-- The collection of information sets is an exact partition of the game's
node set: every node lies in exactly one information set, and information
sets contain only game nodes. -/
def IsPartition (g : Game) : Prop :=
  (∀ x ∈ g.nodes, count_sets_with g.info_sets x = 1) ∧
  (∀ s ∈ g.info_sets, ∀ x ∈ s, x ∈ g.nodes)

/-- Internal invariant of reachable games: the partition property, node-list
distinctness, nonempty duplicate-free information sets, and the collection
being in sorted form. -/
def GameInv (g : Game) : Prop :=
  IsPartition g ∧ g.nodes.Nodup ∧
  (∀ s ∈ g.info_sets, s ≠ [] ∧ s.Nodup) ∧
  (∃ l, g.info_sets = sort_info_sets l)

example : sortByName [⟨1, "b"⟩, ⟨2, "a"⟩] = [⟨2, "a"⟩, ⟨1, "b"⟩] := by decide

example :
    (mk_leaf [(⟨0, "P1"⟩, 3), (⟨1, "P2"⟩, 5)] none).utilities = [3, 5] := by decide

/-! ### Basic facts about the string order -/

theorem char_list_le_total : ∀ xs ys : List Char, char_list_le xs ys = true ∨ char_list_le ys xs = true
  | [], _ => Or.inl rfl
  | _ :: _, [] => Or.inr rfl
  | a :: as, b :: bs => by
    rcases Nat.lt_trichotomy a.toNat b.toNat with h | h | h
    · exact Or.inl (by simp [char_list_le, h])
    · have := char_list_le_total as bs
      rcases this with h2 | h2
      · exact Or.inl (by simp [char_list_le, h, h2])
      · exact Or.inr (by simp [char_list_le, h, h2])
    · exact Or.inr (by simp [char_list_le, h])

theorem char_list_le_trans : ∀ xs ys zs : List Char,
    char_list_le xs ys = true → char_list_le ys zs = true → char_list_le xs zs = true
  | [], _, _ => by intro _ _; rfl
  | _ :: _, [], _ => by intro h _; simp [char_list_le] at h
  | _ :: _, _ :: _, [] => by intro _ h; simp [char_list_le] at h
  | a :: as, b :: bs, c :: cs => by
    intro h1 h2
    rcases Nat.lt_trichotomy a.toNat b.toNat with hab | hab | hab
    · rcases Nat.lt_trichotomy b.toNat c.toNat with hbc | hbc | hbc
      · simp [char_list_le, Nat.lt_trans hab hbc]
      · simp [char_list_le, hbc ▸ hab]
      · simp [char_list_le, hbc, Nat.lt_asymm hbc] at h2
    · rcases Nat.lt_trichotomy b.toNat c.toNat with hbc | hbc | hbc
      · simp [char_list_le, hab ▸ hbc]
      · simp [char_list_le, hab, Nat.lt_irrefl] at h1
        simp [char_list_le, hbc, Nat.lt_irrefl] at h2
        simp [char_list_le, hab.trans hbc, Nat.lt_irrefl, char_list_le_trans as bs cs h1 h2]
      · simp [char_list_le, hbc, Nat.lt_asymm hbc] at h2
    · simp [char_list_le, hab, Nat.lt_asymm hab] at h1

theorem char_list_le_antisymm : ∀ xs ys : List Char,
    char_list_le xs ys = true → char_list_le ys xs = true → xs = ys
  | [], [] => by intro _ _; rfl
  | [], _ :: _ => by intro _ h; simp [char_list_le] at h
  | _ :: _, [] => by intro h _; simp [char_list_le] at h
  | a :: as, b :: bs => by
    intro h1 h2
    rcases Nat.lt_trichotomy a.toNat b.toNat with hab | hab | hab
    · simp [char_list_le, hab, Nat.lt_asymm hab] at h2
    · have ha : a = b := Char.eq_of_val_eq (UInt32.ext hab)
      subst ha
      simp [char_list_le, Nat.lt_irrefl] at h1 h2
      rw [char_list_le_antisymm as bs h1 h2]
    · simp [char_list_le, hab, Nat.lt_asymm hab] at h1

theorem str_le_total (a b : String) : str_le a b = true ∨ str_le b a = true :=
  char_list_le_total a.data b.data

theorem str_le_trans {a b c : String} (h1 : str_le a b = true) (h2 : str_le b c = true) :
    str_le a c = true :=
  char_list_le_trans a.data b.data c.data h1 h2

theorem str_le_antisymm {a b : String} (h1 : str_le a b = true) (h2 : str_le b a = true) :
    a = b := by
  cases a; cases b
  exact congrArg String.mk (char_list_le_antisymm _ _ h1 h2)

/-! ### Concrete objects used by witnesses and counterexamples -/

def pAlice0 : EFG_Player := ⟨0, "Alice"⟩

def pAlice1 : EFG_Player := ⟨1, "Alice"⟩

def pOne : EFG_Player := ⟨1, "Player 1"⟩

def pTwo : EFG_Player := ⟨2, "Player 2"⟩

def pThree : EFG_Player := ⟨3, "Player 3"⟩

/-! ### C4: player equality and hashing -/

/-- C4 counterexample: two distinct `EFG_Player` objects with the same name
are *not* equal (`EFG_Player` defines no `__eq__`, so `==` is object
identity), refuting "p and q are equal if and only if p.name equals
q.name"; their hashes do agree. -/
theorem c4_counterexample :
    pAlice0.name = pAlice1.name ∧ (pAlice0 == pAlice1) = false ∧
    player_hash pAlice0 = player_hash pAlice1 :=
  ⟨rfl, by decide, rfl⟩

/-- C4 amended: `EFG_Player` equality is object identity (in particular
equal players have equal names), and `__hash__` delegates to the name, so
players with equal names always hash equally. -/
theorem c4_amended_player_identity (p q : EFG_Player) :
    ((p == q) = true ↔ p = q) ∧ ((p == q) = true → p.name = q.name) ∧
    (p.name = q.name → player_hash p = player_hash q) :=
  ⟨beq_iff_eq, fun h => by rw [beq_iff_eq.mp h], fun h => by simp [player_hash, h]⟩

/-- Witness for C4: the amended statement applied at concrete players. -/
theorem c4_amended_witness :
    ((pAlice0 == pAlice1) = true ↔ pAlice0 = pAlice1) ∧
    ((pAlice0 == pAlice1) = true → pAlice0.name = pAlice1.name) ∧
    (pAlice0.name = pAlice1.name → player_hash pAlice0 = player_hash pAlice1) :=
  c4_amended_player_identity pAlice0 pAlice1

/-! ### C5: the gambit child-index lookup -/

def c5_node_input : List (String × Nat) := [("A", 7), ("B", 7)]

/-- C5 counterexample: when the same child sits under two actions, the
earliest matching action has index 0 (`find?` locates it), but the lookup
loop, having no `break`, keeps overwriting `child_index` and returns the
index 1 of the *last* matching action — refuting the first-match claim. -/
theorem c5_counterexample :
    c5_node_input.find? (fun kv => kv.2 == 7) = some ("A", 7) ∧
    get_gambit_child_index c5_node_input 7 = some 1 ∧
    get_gambit_child_index c5_node_input 7 ≠ some 0 := by
  refine ⟨by decide, by decide, by decide⟩

theorem foldl_if_last {α β : Type} (p : α → Bool) (f : α → β) :
    ∀ (l : List α) (acc : Option β),
      l.foldl (fun a x => if p x then some (f x) else a) acc =
        (match (l.filter p).getLast? with
          | some x => some (f x)
          | none => acc)
  | [], acc => rfl
  | x :: t, acc => by
    rw [List.foldl_cons, foldl_if_last p f t]
    by_cases hp : p x = true
    · rw [List.filter_cons_of_pos hp]
      cases hft : t.filter p with
      | nil => simp [hft, hp]
      | cons y ys =>
        simp only [hft, hp, List.getLast?_cons_cons]
        cases hgl : (y :: ys).getLast? with
        | none => exact absurd hgl (by simp)
        | some z => rfl
    · rw [List.filter_cons_of_neg (by simpa using hp)]
      simp [hp]

/-- C5 amended: the export child-index lookup scans the whole action list
and returns the index of the *last* action whose `node_input` entry is the
given child (equal to the unique match when the child sits under exactly
one action); with no match it fails (`none`, an unbound `child_index`). -/
theorem c5_amended_last_match (ni : List (String × Nat)) (child : Nat) :
    get_gambit_child_index ni child =
      (((ni.map Prod.fst).enum).filter
        (fun ia => node_input_lookup ni ia.2 == some child)).getLast?.map Prod.fst := by
  rw [get_gambit_child_index,
    foldl_if_last (fun ia => node_input_lookup ni ia.2 == some child) Prod.fst]
  cases h : (((ni.map Prod.fst).enum).filter
      (fun ia => node_input_lookup ni ia.2 == some child)).getLast? <;> simp [h]

/-! ### C7: obtain_nash player-count restriction -/

/-- C7: with gambit present, a game with more than two players makes
`obtain_nash` raise its `NotImplementedError` during the initial check, i.e.
before `_sage_to_gambit` export or any solver invocation (the `.ok` branch
of the model), leaving the game unchanged. -/
theorem c7_obtain_nash_two_player_restriction (g : Game) (h : 2 < g.players.length) :
    obtain_nash true g =
      .error "Nash equilibrium for games with more than 2 players have not been implemented yet." := by
  simp [obtain_nash, h]

def c7_nodes : List GNode :=
  [⟨10, "Node 1", pThree, [("A", 100), ("B", 101)]⟩,
   ⟨11, "Node 2", pTwo, [("A", 102), ("B", 103)]⟩,
   ⟨12, "Root 1", pOne, [("C", 10), ("D", 11)]⟩]

def c7_game : Game := mkGame c7_nodes

/-- Witness for C7: a concrete three-player game. -/
theorem c7_witness :
    2 < c7_game.players.length ∧
    obtain_nash true c7_game =
      .error "Nash equilibrium for games with more than 2 players have not been implemented yet." :=
  ⟨by decide, c7_obtain_nash_two_player_restriction c7_game (by decide)⟩

/-! ### C10: leaf mutation frame -/

def c10_leaf : EFG_Leaf := mk_leaf [(⟨20, "X"⟩, 3), (⟨21, "Y"⟩, 5)] none

/-- C10: `EFG_Leaf.__setitem__` and `__delitem__` change only the payoff
dict; the `players` list and `utilities` tuple computed by `__init__` (as
well as `name` and `parent`) are untouched and never recomputed, so after a
deletion the stored utilities disagree with what a fresh construction from
the current payoffs would give. -/
theorem c10_leaf_mutation_frame (l : EFG_Leaf) (k : EFG_Player) (v : Int) (k2 : EFG_Player) :
    (leaf_setitem l k v).players = l.players ∧
    (leaf_setitem l k v).utilities = l.utilities ∧
    (leaf_setitem l k v).name = l.name ∧
    (leaf_setitem l k v).parent = l.parent ∧
    (leaf_delitem l k2).players = l.players ∧
    (leaf_delitem l k2).utilities = l.utilities ∧
    (leaf_delitem l k2).name = l.name ∧
    (leaf_delitem l k2).parent = l.parent ∧
    (leaf_delitem c10_leaf ⟨21, "Y"⟩).utilities ≠
      (mk_leaf (leaf_delitem c10_leaf ⟨21, "Y"⟩).payoffs
        (leaf_delitem c10_leaf ⟨21, "Y"⟩).name).utilities :=
  ⟨rfl, rfl, rfl, rfl, rfl, rfl, rfl, rfl, by decide⟩

/-! ### C2: set_info_set consistency checks -/

theorem dedup_length_eq_one_of_all_eq {α : Type} [DecidableEq α] {l : List α} (hne : l ≠ [])
    (h : ∀ a ∈ l, ∀ b ∈ l, a = b) : l.dedup.length = 1 := by
  obtain ⟨c, t, rfl⟩ : ∃ c t, l = c :: t := by
    cases l with
    | nil => exact absurd rfl hne
    | cons c t => exact ⟨c, t, rfl⟩
  have hc : c ∈ (c :: t).dedup := List.mem_dedup.mpr (List.mem_cons_self c t)
  have hall : ∀ x ∈ (c :: t).dedup, x = c :=
    fun x hx => h x (List.mem_dedup.mp hx) c (List.mem_cons_self c t)
  have hnd := List.nodup_dedup (c :: t)
  cases hd : (c :: t).dedup with
  | nil => rw [hd] at hc; exact absurd hc (List.not_mem_nil c)
  | cons x r =>
    cases r with
    | nil => rfl
    | cons y r2 =>
      rw [hd] at hall hnd
      have hx : x = c := hall x (by simp)
      have hy : y = c := hall y (by simp)
      rw [List.nodup_cons] at hnd
      exact absurd (by simp [hx, hy]) hnd.1

theorem dedup_length_ne_one_of_two_ne {α : Type} [DecidableEq α] {l : List α} {a b : α}
    (ha : a ∈ l) (hb : b ∈ l) (hab : a ≠ b) : l.dedup.length ≠ 1 := by
  intro h1
  obtain ⟨x, hx⟩ := List.length_eq_one.mp h1
  have ha2 : a ∈ l.dedup := List.mem_dedup.mpr ha
  have hb2 : b ∈ l.dedup := List.mem_dedup.mpr hb
  rw [hx] at ha2 hb2
  simp at ha2 hb2
  exact hab (ha2.trans hb2.symm)

theorem sorted_actions_eq_imp {n m : GNode} (h : sorted_actions n = sorted_actions m) :
    ∀ a, a ∈ n.actions ↔ a ∈ m.actions := by
  have hn : ∀ a : String, a ∈ sorted_actions n ↔ a ∈ n.actions :=
    fun a => (List.perm_insertionSort _ n.actions).mem_iff
  have hm : ∀ a : String, a ∈ sorted_actions m ↔ a ∈ m.actions :=
    fun a => (List.perm_insertionSort _ m.actions).mem_iff
  intro a
  exact ⟨fun ha => (hm a).mp (h ▸ ((hn a).mpr ha)),
    fun ha => (hn a).mp (h.symm ▸ ((hm a).mpr ha))⟩

/-- C2: if the argument nodes do not all share one player, `set_info_set`
raises the inconsistent-player error; if they share a player but not one
action-label set (as unordered sets), it raises the inconsistent-actions
error.  Both checks precede every mutation in the source, so the raise
leaves `info_sets` exactly as it was (all-or-nothing). -/
theorem c2_set_info_set_checks (g : Game) (ns : List GNode) :
    ((∃ n, n ∈ ns ∧ ∃ m, m ∈ ns ∧ n.player ≠ m.player) →
      set_info_set g ns =
        .error "All nodes in the same information set must have the same players." ∧
      set_info_set_state g ns = g) ∧
    ((∀ n ∈ ns, ∀ m ∈ ns, n.player = m.player) →
      (∃ n, n ∈ ns ∧ ∃ m, m ∈ ns ∧ ¬ (∀ a, a ∈ n.actions ↔ a ∈ m.actions)) →
      set_info_set g ns =
        .error "All nodes in the same information set must have the same actions." ∧
      set_info_set_state g ns = g) := by
  constructor
  · rintro ⟨n, hn, m, hm, hne⟩
    have hc : (ns.map GNode.player).dedup.length ≠ 1 :=
      dedup_length_ne_one_of_two_ne (List.mem_map_of_mem GNode.player hn)
        (List.mem_map_of_mem GNode.player hm) hne
    have herr : set_info_set g ns =
        .error "All nodes in the same information set must have the same players." := by
      rw [set_info_set, if_pos hc]
    exact ⟨herr, by rw [set_info_set_state, herr]⟩
  · rintro hp ⟨n, hn, m, hm, hne⟩
    have hpe : (ns.map GNode.player).dedup.length = 1 := by
      refine dedup_length_eq_one_of_all_eq (by simpa using List.ne_nil_of_mem hn) ?_
      rintro a ha b hb
      obtain ⟨na, hna, rfl⟩ := List.mem_map.mp ha
      obtain ⟨nb, hnb, rfl⟩ := List.mem_map.mp hb
      exact hp na hna nb hnb
    have hae : sorted_actions n ≠ sorted_actions m :=
      fun hsa => hne (sorted_actions_eq_imp hsa)
    have hc : (ns.map sorted_actions).dedup.length ≠ 1 :=
      dedup_length_ne_one_of_two_ne (List.mem_map_of_mem sorted_actions hn)
        (List.mem_map_of_mem sorted_actions hm) hae
    have herr : set_info_set g ns =
        .error "All nodes in the same information set must have the same actions." := by
      rw [set_info_set, if_neg (fun hh => hh hpe), if_pos hc]
    exact ⟨herr, by rw [set_info_set_state, herr]⟩

def c2_n1 : GNode := ⟨30, "Node 1", pOne, [("A", 300), ("B", 301)]⟩

def c2_n2 : GNode := ⟨31, "Node 2", pTwo, [("A", 302), ("B", 303)]⟩

def c2_n3 : GNode := ⟨32, "Node 3", pOne, [("Z", 304)]⟩

/-- Witness for C2: a concrete inconsistent-player pair and a concrete
inconsistent-actions pair. -/
theorem c2_witness :
    (set_info_set c7_game [c2_n1, c2_n2] =
        .error "All nodes in the same information set must have the same players." ∧
      set_info_set_state c7_game [c2_n1, c2_n2] = c7_game) ∧
    (set_info_set c7_game [c2_n1, c2_n3] =
        .error "All nodes in the same information set must have the same actions." ∧
      set_info_set_state c7_game [c2_n1, c2_n3] = c7_game) :=
  ⟨(c2_set_info_set_checks c7_game [c2_n1, c2_n2]).1
      ⟨c2_n1, by decide, c2_n2, by decide, by decide⟩,
   (c2_set_info_set_checks c7_game [c2_n1, c2_n3]).2 (by decide)
      ⟨c2_n1, by decide, c2_n3, by decide,
        fun hall => absurd ((hall "Z").mpr (by decide)) (by decide)⟩⟩

/-! ### Infrastructure: membership, covers and the re-singleton pass -/

theorem bool_eq_of_iff {a b : Bool} (h : a = true ↔ b = true) : a = b := by
  cases a <;> cases b <;> simp_all

theorem contains_iff_mem {α : Type} [BEq α] [LawfulBEq α] {l : List α} {x : α} :
    l.contains x = true ↔ x ∈ l :=
  List.elem_iff

theorem covers_iff {iss : List (List GNode)} {x : GNode} :
    covers iss x = true ↔ ∃ s ∈ iss, x ∈ s := by
  simp [covers, List.any_eq_true, contains_iff_mem]

theorem covers_append (iss1 iss2 : List (List GNode)) (x : GNode) :
    covers (iss1 ++ iss2) x = (covers iss1 x || covers iss2 x) := by
  simp [covers, List.any_append]

theorem covers_eq_of_perm {iss1 iss2 : List (List GNode)} (h : iss1.Perm iss2) (x : GNode) :
    covers iss1 x = covers iss2 x := by
  refine bool_eq_of_iff ?_
  rw [covers_iff, covers_iff]
  exact ⟨fun ⟨s, hs, hx⟩ => ⟨s, h.mem_iff.mp hs, hx⟩, fun ⟨s, hs, hx⟩ => ⟨s, h.mem_iff.mpr hs, hx⟩⟩

theorem covers_of_countP_pos {iss : List (List GNode)} {x : GNode}
    (h : 0 < iss.countP (fun s => s.contains x)) : covers iss x = true := by
  obtain ⟨s, hs, hxs⟩ := List.countP_pos_iff.mp h
  exact covers_iff.mpr ⟨s, hs, contains_iff_mem.mp hxs⟩

theorem countP_eq_zero_of_not_covers {iss : List (List GNode)} {x : GNode}
    (h : covers iss x = false) : iss.countP (fun s => s.contains x) = 0 := by
  by_contra hne
  exact absurd (covers_of_countP_pos (Nat.pos_of_ne_zero hne)) (by simp [h])

theorem resingle_cons (nd : GNode) (rest : List GNode) (acc : List (List GNode)) :
    resingle (nd :: rest) acc = resingle rest (if covers acc nd then acc else acc ++ [[nd]]) :=
  rfl

theorem resingle_countP_covered (nodes : List GNode) :
    ∀ (acc : List (List GNode)) (x : GNode), covers acc x = true →
      (resingle nodes acc).countP (fun s => s.contains x) =
        acc.countP (fun s => s.contains x) := by
  induction nodes with
  | nil => intro acc x _; rfl
  | cons nd rest ih =>
    intro acc x hx
    rw [resingle_cons]
    by_cases hc : covers acc nd = true
    · rw [if_pos hc]; exact ih acc x hx
    · rw [if_neg hc]
      have hxnd : ¬ x = nd := fun he => hc (he ▸ hx)
      have hcov : covers (acc ++ [[nd]]) x = true := by
        rw [covers_append, hx]; rfl
      rw [ih (acc ++ [[nd]]) x hcov, List.countP_append]
      simp [contains_iff_mem, hxnd]

theorem resingle_countP_uncovered (nodes : List GNode) :
    ∀ (acc : List (List GNode)) (x : GNode), covers acc x = false → x ∈ nodes →
      (resingle nodes acc).countP (fun s => s.contains x) =
        acc.countP (fun s => s.contains x) + 1 := by
  induction nodes with
  | nil => intro acc x _ hx; exact absurd hx (List.not_mem_nil x)
  | cons nd rest ih =>
    intro acc x hx hmem
    rw [resingle_cons]
    by_cases hc : covers acc nd = true
    · rw [if_pos hc]
      have hxnd : ¬ x = nd := fun he => by rw [he] at hx; rw [hx] at hc; exact Bool.false_ne_true hc
      exact ih acc x hx (by
        cases List.mem_cons.mp hmem with
        | inl h => exact absurd h hxnd
        | inr h => exact h)
    · rw [if_neg hc]
      by_cases hxnd : x = nd
      · subst hxnd
        have hcov : covers (acc ++ [[x]]) x = true := by
          rw [covers_append]
          simp [covers, contains_iff_mem]
        rw [resingle_countP_covered rest (acc ++ [[x]]) x hcov, List.countP_append]
        simp [contains_iff_mem]
      · have hcov : covers (acc ++ [[nd]]) x = false := by
          rw [covers_append, hx]
          simp [covers, contains_iff_mem, hxnd]
        have hmem2 : x ∈ rest := by
          cases List.mem_cons.mp hmem with
          | inl h => exact absurd h hxnd
          | inr h => exact h
        rw [ih (acc ++ [[nd]]) x hcov hmem2, List.countP_append]
        simp [contains_iff_mem, hxnd]

theorem resingle_countP_not_mem (nodes : List GNode) :
    ∀ (acc : List (List GNode)) (x : GNode), x ∉ nodes →
      (resingle nodes acc).countP (fun s => s.contains x) =
        acc.countP (fun s => s.contains x) := by
  induction nodes with
  | nil => intro acc x _; rfl
  | cons nd rest ih =>
    intro acc x hx
    have hxnd : ¬ x = nd := fun he => hx (he ▸ List.mem_cons_self nd rest)
    have hxr : x ∉ rest := fun hr => hx (List.mem_cons_of_mem nd hr)
    rw [resingle_cons]
    by_cases hc : covers acc nd = true
    · rw [if_pos hc]; exact ih acc x hxr
    · rw [if_neg hc]
      rw [ih (acc ++ [[nd]]) x hxr, List.countP_append]
      simp [contains_iff_mem, hxnd]

theorem resingle_sets (nodes : List GNode) :
    ∀ (acc : List (List GNode)) (s : List GNode), s ∈ resingle nodes acc →
      s ∈ acc ∨ ∃ nd ∈ nodes, s = [nd] := by
  induction nodes with
  | nil => intro acc s hs; exact Or.inl hs
  | cons nd rest ih =>
    intro acc s hs
    rw [resingle_cons] at hs
    by_cases hc : covers acc nd = true
    · rw [if_pos hc] at hs
      rcases ih acc s hs with h | ⟨nd2, hnd2, he⟩
      · exact Or.inl h
      · exact Or.inr ⟨nd2, List.mem_cons_of_mem nd hnd2, he⟩
    · rw [if_neg hc] at hs
      rcases ih (acc ++ [[nd]]) s hs with h | ⟨nd2, hnd2, he⟩
      · rcases List.mem_append.mp h with h2 | h2
        · exact Or.inl h2
        · exact Or.inr ⟨nd, List.mem_cons_self nd rest, by simpa using h2⟩
      · exact Or.inr ⟨nd2, List.mem_cons_of_mem nd hnd2, he⟩

theorem resingle_eq_of_all_covered (nodes : List GNode) :
    ∀ acc : List (List GNode), (∀ nd ∈ nodes, covers acc nd = true) →
      resingle nodes acc = acc := by
  induction nodes with
  | nil => intro acc _; rfl
  | cons nd rest ih =>
    intro acc h
    rw [resingle_cons, if_pos (h nd (List.mem_cons_self nd rest))]
    exact ih acc (fun nd2 h2 => h nd2 (List.mem_cons_of_mem nd h2))

/-! ### Infrastructure: sorting and elimination of successful calls -/

theorem sort_info_sets_perm (l : List (List GNode)) : (sort_info_sets l).Perm l :=
  List.perm_insertionSort _ l

theorem sort_nodes_perm (l : List GNode) : (sort_nodes l).Perm l :=
  List.perm_insertionSort _ l

theorem sort_info_sets_sorted (l : List (List GNode)) :
    (sort_info_sets l).Pairwise (fun a b => str_le (is_key a) (is_key b) = true) := by
  haveI : IsTotal (List GNode) (fun a b => str_le (is_key a) (is_key b) = true) :=
    ⟨fun a b => str_le_total (is_key a) (is_key b)⟩
  haveI : IsTrans (List GNode) (fun a b => str_le (is_key a) (is_key b) = true) :=
    ⟨fun _ _ _ h1 h2 => str_le_trans h1 h2⟩
  exact List.sorted_insertionSort _ l

theorem set_info_set_ok_elim {g g' : Game} {ns : List GNode}
    (hok : set_info_set g ns = .ok g') :
    ns ≠ [] ∧ g'.nodes = g.nodes ∧ g'.players = g.players ∧
    g'.info_sets = sort_info_sets (resingle g.nodes
      ((g.info_sets.filter (fun s => !(ns.any (fun nd => s.contains nd)))) ++
        [sort_nodes ns])) := by
  by_cases h1 : (ns.map GNode.player).dedup.length ≠ 1
  · rw [set_info_set, if_pos h1] at hok
    exact absurd hok (by simp)
  by_cases h2 : (ns.map sorted_actions).dedup.length ≠ 1
  · rw [set_info_set, if_neg h1, if_pos h2] at hok
    exact absurd hok (by simp)
  rw [set_info_set, if_neg h1, if_neg h2] at hok
  have hg := Except.ok.inj hok
  subst hg
  refine ⟨?_, rfl, rfl, rfl⟩
  intro hns
  subst hns
  simp at h1

theorem remove_info_set_ok_elim {g g' : Game} {ns : List GNode}
    (hok : remove_info_set g ns = .ok g') :
    ns ∈ g.info_sets ∧ g'.nodes = g.nodes ∧ g'.players = g.players ∧
    g'.info_sets = sort_info_sets ((g.info_sets.erase ns) ++ ns.map (fun nd => [nd])) := by
  by_cases h1 : g.info_sets.contains ns = true
  · rw [remove_info_set, if_pos h1] at hok
    have hg := Except.ok.inj hok
    subst hg
    exact ⟨contains_iff_mem.mp h1, rfl, rfl, rfl⟩
  · rw [remove_info_set, if_neg h1] at hok
    exact absurd hok (by simp)

/-! ### The partition invariant is established and preserved -/

theorem mkGame_inv {nodes : List GNode} (hnd : nodes.Nodup) : GameInv (mkGame nodes) := by
  refine ⟨⟨?_, ?_⟩, hnd, ?_, ⟨nodes.map (fun nd => [nd]), rfl⟩⟩
  · intro x hx
    show List.countP (fun s => s.contains x) (sort_info_sets (nodes.map (fun nd => [nd]))) = 1
    rw [(sort_info_sets_perm _).countP_eq, List.countP_map]
    have hcong : ∀ nd ∈ nodes,
        (((fun s => s.contains x) ∘ (fun nd => [nd])) nd = true ↔ (nd == x) = true) := by
      intro nd _
      simp only [Function.comp_apply, contains_iff_mem, beq_iff_eq, List.mem_singleton]
      exact ⟨fun h => h.symm, fun h => h.symm⟩
    rw [List.countP_congr hcong]
    have : nodes.countP (fun nd => nd == x) = nodes.count x := rfl
    rw [this]
    exact List.count_eq_one_of_mem hnd hx
  · intro s hs x hxs
    have hs2 : s ∈ nodes.map (fun nd => [nd]) := (sort_info_sets_perm _).mem_iff.mp hs
    obtain ⟨nd, hnd2, rfl⟩ := List.mem_map.mp hs2
    simpa using (by simpa using hxs : x = nd) ▸ hnd2
  · intro s hs
    have hs2 : s ∈ nodes.map (fun nd => [nd]) := (sort_info_sets_perm _).mem_iff.mp hs
    obtain ⟨nd, _, rfl⟩ := List.mem_map.mp hs2
    exact ⟨by simp, by simp⟩

theorem countP_singleton {α : Type} (p : α → Bool) (a : α) :
    List.countP p [a] = if p a then 1 else 0 := by
  simp [List.countP_cons]

theorem set_info_set_preserves_inv {g g' : Game} {ns : List GNode}
    (hInv : GameInv g) (hnd : ns.Nodup) (hsub : ∀ n ∈ ns, n ∈ g.nodes)
    (hok : set_info_set g ns = .ok g') : GameInv g' := by
  obtain ⟨⟨hcount, hsubset⟩, hnodesnd, hsets, _⟩ := hInv
  obtain ⟨hne, hn, _, hiss⟩ := set_info_set_ok_elim hok
  have hsortns : (sort_nodes ns).Perm ns := sort_nodes_perm ns
  have hmem_sns : ∀ x : GNode, x ∈ sort_nodes ns ↔ x ∈ ns := fun x => hsortns.mem_iff
  set q : List GNode → Bool := fun s => !(ns.any (fun nd => s.contains nd)) with hq
  set flt := g.info_sets.filter q with hflt
  set A := flt ++ [sort_nodes ns] with hA
  refine ⟨⟨?_, ?_⟩, hn ▸ hnodesnd, ?_, ⟨_, hiss⟩⟩
  · intro x hx
    rw [hn] at hx
    rw [count_sets_with, hiss, (sort_info_sets_perm _).countP_eq]
    by_cases hxns : x ∈ ns
    · have hqs : ∀ s ∈ flt, s.contains x = false := by
        intro s hs
        have hmf := List.mem_filter.mp hs
        have hany : (ns.any (fun nd => s.contains nd)) = false := by
          have h2 := hmf.2
          rw [hq] at h2
          simpa using h2
        rw [List.any_eq_false] at hany
        exact Bool.eq_false_iff.mpr (hany x hxns)
      have h0 : flt.countP (fun s => s.contains x) = 0 :=
        List.countP_eq_zero.mpr (fun s hs => by rw [hqs s hs]; simp)
      have hcovA : covers A x = true := by
        rw [hA, covers_append]
        have h1 : covers [sort_nodes ns] x = true :=
          covers_iff.mpr ⟨sort_nodes ns, List.mem_singleton_self _, (hmem_sns x).mpr hxns⟩
        rw [h1, Bool.or_true]
      rw [resingle_countP_covered g.nodes A x hcovA, hA, List.countP_append, h0]
      have hc1 : (sort_nodes ns).contains x = true :=
        contains_iff_mem.mpr ((hmem_sns x).mpr hxns)
      rw [countP_singleton]
      simp only [hc1, if_true]
    · have hx_sns : (sort_nodes ns).contains x = false :=
        Bool.eq_false_iff.mpr (fun hc => hxns ((hmem_sns x).mp (contains_iff_mem.mp hc)))
      have hflt_eq : flt.countP (fun s => s.contains x) =
          g.info_sets.countP (fun s => s.contains x && q s) := by
        rw [hflt, List.countP_filter]
      have hle : g.info_sets.countP (fun s => s.contains x && q s) ≤ 1 :=
        le_trans (List.countP_mono_left
            (fun s _ h => by
              rw [Bool.and_eq_true] at h
              exact h.1)) (le_of_eq (hcount x hx))
      rcases Nat.le_one_iff_eq_zero_or_eq_one.mp hle with hc0 | hc1
      · have hcovflt : covers flt x = false := by
          refine Bool.eq_false_iff.mpr (fun hc => ?_)
          obtain ⟨s, hs, hxs⟩ := covers_iff.mp hc
          have : 0 < flt.countP (fun s => s.contains x) :=
            List.countP_pos_iff.mpr ⟨s, hs, contains_iff_mem.mpr hxs⟩
          rw [hflt_eq, hc0] at this
          exact Nat.lt_irrefl 0 this
        have hcovA : covers A x = false := by
          rw [hA, covers_append, hcovflt]
          simp only [covers, List.any_cons, List.any_nil, Bool.or_false, hx_sns,
            Bool.false_or]
        rw [resingle_countP_uncovered g.nodes A x hcovA hx, hA, List.countP_append]
        rw [hflt_eq, hc0, countP_singleton]
        simp only [hx_sns]
        simp
      · have hcovA : covers A x = true := by
          rw [hA, covers_append]
          have : covers flt x = true := by
            refine covers_of_countP_pos ?_
            rw [hflt_eq, hc1]
            exact Nat.zero_lt_one
          rw [this, Bool.true_or]
        rw [resingle_countP_covered g.nodes A x hcovA, hA, List.countP_append]
        rw [hflt_eq, hc1, countP_singleton]
        simp only [hx_sns]
        simp
  · intro s hs x hxs
    rw [hn]
    rw [hiss] at hs
    have hs2 : s ∈ resingle g.nodes A := (sort_info_sets_perm _).mem_iff.mp hs
    rcases resingle_sets g.nodes A s hs2 with hsA | ⟨nd, hnd2, rfl⟩
    · rcases List.mem_append.mp hsA with hs3 | hs3
      · exact hsubset s (List.mem_filter.mp hs3).1 x hxs
      · have heq : s = sort_nodes ns := by simpa using hs3
        subst heq
        exact hsub x ((hmem_sns x).mp hxs)
    · have hx2 : x = nd := by simpa using hxs
      exact hx2 ▸ hnd2
  · intro s hs
    rw [hiss] at hs
    have hs2 : s ∈ resingle g.nodes A := (sort_info_sets_perm _).mem_iff.mp hs
    rcases resingle_sets g.nodes A s hs2 with hsA | ⟨nd, _, rfl⟩
    · rcases List.mem_append.mp hsA with hs3 | hs3
      · exact hsets s (List.mem_filter.mp hs3).1
      · have heq : s = sort_nodes ns := by simpa using hs3
        subst heq
        refine ⟨?_, hsortns.nodup_iff.mpr hnd⟩
        intro hnil
        have := hsortns.length_eq
        rw [hnil] at this
        exact hne (List.eq_nil_of_length_eq_zero this.symm)
    · exact ⟨by simp, by simp⟩

theorem perm_cons_erase_beq {α : Type} [BEq α] [LawfulBEq α] {a : α} :
    ∀ {l : List α}, a ∈ l → l.Perm (a :: l.erase a) := by
  intro l
  induction l with
  | nil => intro h; exact absurd h (List.not_mem_nil a)
  | cons b t ih =>
    intro h
    rw [List.erase_cons]
    by_cases hba : (b == a) = true
    · have hb : b = a := eq_of_beq hba
      subst hb
      rw [if_pos hba]
    · rw [if_neg hba]
      have hat : a ∈ t := by
        cases List.mem_cons.mp h with
        | inl h2 =>
          exact absurd (show (b == a) = true by rw [← h2]; exact beq_self_eq_true a) hba
        | inr h2 => exact h2
      exact ((ih hat).cons b).trans (List.Perm.swap a b (t.erase a))

theorem remove_info_set_preserves_inv {g g' : Game} {ns : List GNode}
    (hInv : GameInv g) (hok : remove_info_set g ns = .ok g') : GameInv g' := by
  obtain ⟨⟨hcount, hsubset⟩, hnodesnd, hsets, _⟩ := hInv
  obtain ⟨hmem, hn, _, hiss⟩ := remove_info_set_ok_elim hok
  have hperm : g.info_sets.Perm (ns :: g.info_sets.erase ns) := perm_cons_erase_beq hmem
  have hnsnd : ns.Nodup := (hsets ns hmem).2
  have hnssub : ∀ x ∈ ns, x ∈ g.nodes := hsubset ns hmem
  refine ⟨⟨?_, ?_⟩, hn ▸ hnodesnd, ?_, ⟨_, hiss⟩⟩
  · intro x hx
    rw [hn] at hx
    rw [count_sets_with, hiss, (sort_info_sets_perm _).countP_eq, List.countP_append]
    have hsplit : g.info_sets.countP (fun s => s.contains x) =
        (if ns.contains x then 1 else 0) +
          (g.info_sets.erase ns).countP (fun s => s.contains x) := by
      rw [hperm.countP_eq, List.countP_cons]
      omega
    have hmap : (ns.map (fun nd => [nd])).countP (fun s => s.contains x) = ns.count x := by
      rw [List.countP_map]
      refine (List.countP_congr ?_).trans rfl
      intro nd _
      simp only [Function.comp_apply, contains_iff_mem, beq_iff_eq, List.mem_singleton]
      exact ⟨fun h => h.symm, fun h => h.symm⟩
    by_cases hxns : x ∈ ns
    · have hc : ns.contains x = true := contains_iff_mem.mpr hxns
      have h1 := hcount x hx
      rw [count_sets_with, hsplit, hc, if_pos rfl] at h1
      rw [hmap, List.count_eq_one_of_mem hnsnd hxns]
      omega
    · have hc : ns.contains x = false :=
        Bool.eq_false_iff.mpr (fun h2 => hxns (contains_iff_mem.mp h2))
      have h1 := hcount x hx
      rw [count_sets_with, hsplit, hc] at h1
      simp only [Bool.false_eq_true, if_false, Nat.zero_add] at h1
      rw [hmap, List.count_eq_zero_of_not_mem hxns]
      omega
  · intro s hs x hxs
    rw [hn]
    rw [hiss] at hs
    have hs2 := (sort_info_sets_perm _).mem_iff.mp hs
    rcases List.mem_append.mp hs2 with h2 | h2
    · exact hsubset s (List.mem_of_mem_erase h2) x hxs
    · obtain ⟨nd, hnd2, rfl⟩ := List.mem_map.mp h2
      have hx2 : x = nd := by simpa using hxs
      rw [hx2]
      exact hnssub nd hnd2
  · intro s hs
    rw [hiss] at hs
    have hs2 := (sort_info_sets_perm _).mem_iff.mp hs
    rcases List.mem_append.mp hs2 with h2 | h2
    · exact hsets s (List.mem_of_mem_erase h2)
    · obtain ⟨nd, _, rfl⟩ := List.mem_map.mp h2
      exact ⟨by simp, by simp⟩

theorem reachable_nodes_eq {g0 g : Game} (h : Reachable g0 g) : g.nodes = g0.nodes := by
  induction h with
  | refl => rfl
  | set _ _ _ hok ih => rw [(set_info_set_ok_elim hok).2.1, ih]
  | rem _ _ _ hok ih => rw [(remove_info_set_ok_elim hok).2.1, ih]

theorem reachable_inv {nodes : List GNode} {g : Game} (hnd : nodes.Nodup)
    (h : Reachable (mkGame nodes) g) : GameInv g := by
  induction h with
  | refl => exact mkGame_inv hnd
  | set _ hnd2 hsub hok ih => exact set_info_set_preserves_inv ih hnd2 hsub hok
  | rem _ hnd2 _ hok ih => exact remove_info_set_preserves_inv ih hok

/-! ### C1: the partition invariant -/

/-- C1: starting from a constructed game (whose `info_sets` are the sorted
singletons of its node list), any sequence of successful `set_info_set` and
`remove_info_set` calls with argument lists of distinct game nodes keeps
`info_sets` an exact partition of the node set: every node lies in exactly
one information set (no node in two sets, no node in zero sets), and the
sets contain only game nodes.  Node distinctness of the construction is
automatic in Python (the node list collects distinct objects). -/
theorem c1_partition_invariant (nodes : List GNode) (hnd : nodes.Nodup) (g : Game)
    (h : Reachable (mkGame nodes) g) :
    (∀ x ∈ g.nodes, count_sets_with g.info_sets x = 1) ∧
    (∀ s ∈ g.info_sets, ∀ x ∈ s, x ∈ g.nodes) :=
  (reachable_inv hnd h).1

def c1_na : GNode := ⟨40, "Node 1", pTwo, [("A", 400), ("B", 401)]⟩

def c1_nb : GNode := ⟨41, "Node 2", pTwo, [("A", 402), ("B", 403)]⟩

def c1_root : GNode := ⟨42, "Root 1", pOne, [("C", 40), ("D", 41)]⟩

def c1_nodes : List GNode := [c1_na, c1_nb, c1_root]

def c1_g1 : Game := set_info_set_state (mkGame c1_nodes) [c1_na, c1_nb]

/-- Witness for C1: a concrete three-node game after one successful
`set_info_set` call grouping the two sibling nodes. -/
theorem c1_witness :
    (∀ x ∈ c1_g1.nodes, count_sets_with c1_g1.info_sets x = 1) ∧
    (∀ s ∈ c1_g1.info_sets, ∀ x ∈ s, x ∈ c1_g1.nodes) :=
  c1_partition_invariant c1_nodes (by decide) c1_g1
    (@Reachable.set (mkGame c1_nodes) (mkGame c1_nodes) c1_g1 [c1_na, c1_nb]
      (Reachable.refl _) (by decide) (by decide) (by rfl))

/-! ### C8: re-singletoning an already-singleton node -/

theorem filter_perm_erase {α : Type} [BEq α] [LawfulBEq α] (p : α → Bool) :
    ∀ (l : List α) (a : α), a ∈ l → p a = false → l.countP (fun x => !(p x)) = 1 →
      (l.filter p).Perm (l.erase a)
  | [], a, ha, _, _ => absurd ha (List.not_mem_nil a)
  | b :: t, a, ha, hpa, hcnt => by
    rw [List.erase_cons]
    by_cases hba : (b == a) = true
    · have hb : b = a := eq_of_beq hba
      subst hb
      rw [if_pos hba, List.filter_cons_of_neg (by simp [hpa])]
      have hstep : (b :: t).countP (fun x => !(p x)) = t.countP (fun x => !(p x)) + 1 := by
        rw [List.countP_cons]
        simp [hpa]
      rw [hstep] at hcnt
      have h0 : t.countP (fun x => !(p x)) = 0 := by omega
      have hft : t.filter p = t := List.filter_eq_self.mpr (by
        intro x hx
        have h2 := List.countP_eq_zero.mp h0 x hx
        simpa using h2)
      rw [hft]
    · rw [if_neg hba]
      have hat : a ∈ t := by
        cases List.mem_cons.mp ha with
        | inl h2 =>
          exact absurd (show (b == a) = true by rw [← h2]; exact beq_self_eq_true a) hba
        | inr h2 => exact h2
      by_cases hpb : p b = true
      · rw [List.filter_cons_of_pos hpb]
        have hstep : (b :: t).countP (fun x => !(p x)) = t.countP (fun x => !(p x)) := by
          rw [List.countP_cons]
          simp [hpb]
        rw [hstep] at hcnt
        exact (filter_perm_erase p t a hat hpa hcnt).cons b
      · exfalso
        have hb1 : p b = false := Bool.eq_false_iff.mpr hpb
        have hstep : (b :: t).countP (fun x => !(p x)) = t.countP (fun x => !(p x)) + 1 := by
          rw [List.countP_cons]
          simp [hb1]
        rw [hstep] at hcnt
        have ht1 : 0 < t.countP (fun x => !(p x)) :=
          List.countP_pos_iff.mpr ⟨a, hat, by simp [hpa]⟩
        omega

/-- C8: on any reachable state, calling `set_info_set([n])` for a node `n`
whose current information set is the singleton `[n]` leaves the partition
unchanged: the resulting `info_sets` collection holds exactly the same
information sets (a permutation of the previous list; with duplicate node
names the stable re-sort may present equal-keyed sets in a different
order, but the partition itself is untouched). -/
theorem c8_set_singleton_idempotent (nodes : List GNode) (hnd : nodes.Nodup) (g : Game)
    (hr : Reachable (mkGame nodes) g) (n : GNode) (hsing : [n] ∈ g.info_sets)
    (g' : Game) (hok : set_info_set g [n] = .ok g') :
    g'.info_sets.Perm g.info_sets := by
  obtain ⟨⟨hcount, hsubset⟩, _, _, _⟩ := reachable_inv hnd hr
  obtain ⟨_, _, _, hiss⟩ := set_info_set_ok_elim hok
  have hnnode : n ∈ g.nodes := hsubset [n] hsing n (by simp)
  have hcnt1 : g.info_sets.countP (fun s => s.contains n) = 1 := hcount n hnnode
  have hfe : g.info_sets.filter (fun s => !([n].any (fun nd => s.contains nd))) =
      g.info_sets.filter (fun s => !(s.contains n)) := by
    apply List.filter_congr
    intro s _
    simp [List.any_cons]
  have hsn : sort_nodes [n] = [n] := rfl
  have hcnt2 : g.info_sets.countP (fun s => !(!(s.contains n))) = 1 := by
    refine Eq.trans (List.countP_congr ?_) hcnt1
    intro s _
    simp
  have hperm1 : (g.info_sets.filter (fun s => !(s.contains n))).Perm
      (g.info_sets.erase [n]) :=
    filter_perm_erase _ g.info_sets [n] hsing (by simp) hcnt2
  have hpermA : ((g.info_sets.filter (fun s => !([n].any (fun nd => s.contains nd)))) ++
      [sort_nodes [n]]).Perm g.info_sets := by
    rw [hfe, hsn]
    refine List.Perm.trans (hperm1.append_right [[n]]) ?_
    refine List.Perm.trans List.perm_append_comm ?_
    exact (perm_cons_erase_beq hsing).symm
  have hallcov : ∀ nd ∈ g.nodes,
      covers ((g.info_sets.filter (fun s => !([n].any (fun nd => s.contains nd)))) ++
        [sort_nodes [n]]) nd = true := by
    intro nd hnd2
    rw [covers_eq_of_perm hpermA]
    refine covers_of_countP_pos ?_
    have h2 := hcount nd hnd2
    rw [count_sets_with] at h2
    rw [h2]
    exact Nat.zero_lt_one
  rw [hiss, resingle_eq_of_all_covered g.nodes _ hallcov]
  exact (sort_info_sets_perm _).trans hpermA

/-- Witness for C8: re-singletoning a singleton node of a concrete game. -/
theorem c8_witness :
    (set_info_set_state (mkGame c1_nodes) [c1_na]).info_sets.Perm
      (mkGame c1_nodes).info_sets :=
  c8_set_singleton_idempotent c1_nodes (by decide) (mkGame c1_nodes) (Reachable.refl _)
    c1_na (by decide) (set_info_set_state (mkGame c1_nodes) [c1_na]) (by rfl)

/-! ### C3: perfect_info -/

theorem eq_of_perm_of_key_sorted {α : Type} (f : α → String) :
    ∀ (l1 l2 : List α), l1.Perm l2 →
      l1.Pairwise (fun a b => str_le (f a) (f b) = true) →
      l2.Pairwise (fun a b => str_le (f a) (f b) = true) →
      (l1.map f).Nodup → l1 = l2
  | [], l2, hp, _, _, _ => hp.nil_eq
  | a :: t1, l2, hp, hs1, hs2, hnd => by
    have ha2 : a ∈ l2 := hp.mem_iff.mp (List.mem_cons_self a t1)
    cases l2 with
    | nil => exact absurd ha2 (List.not_mem_nil a)
    | cons b t2 =>
      by_cases hab : a = b
      · subst hab
        have hp2 : t1.Perm t2 := hp.cons_inv
        have heq : t1 = t2 :=
          eq_of_perm_of_key_sorted f t1 t2 hp2 (List.pairwise_cons.mp hs1).2
            (List.pairwise_cons.mp hs2).2 (List.nodup_cons.mp (by simpa using hnd)).2
        rw [heq]
      · have ha2' : a ∈ t2 := by
          cases List.mem_cons.mp ha2 with
          | inl h2 => exact absurd h2 hab
          | inr h2 => exact h2
        have hb1 : b ∈ t1 := by
          have hb : b ∈ a :: t1 := hp.mem_iff.mpr (List.mem_cons_self b t2)
          cases List.mem_cons.mp hb with
          | inl h2 => exact absurd h2.symm hab
          | inr h2 => exact h2
        have h1 : str_le (f a) (f b) = true := (List.pairwise_cons.mp hs1).1 b hb1
        have h2 : str_le (f b) (f a) = true := (List.pairwise_cons.mp hs2).1 a ha2'
        have hfeq : f a = f b := str_le_antisymm h1 h2
        have hnotin : f a ∉ t1.map f := (List.nodup_cons.mp (by simpa using hnd)).1
        exact absurd (hfeq ▸ List.mem_map_of_mem f hb1) hnotin

def c3_r : GNode := ⟨60, "X", pOne, [("A", 61), ("B", 600)]⟩

def c3_n : GNode := ⟨61, "X", pOne, [("A", 601), ("B", 602)]⟩

def c3_nodes : List GNode := [c3_r, c3_n]

def c3_g0 : Game := mkGame c3_nodes

def c3_g1 : Game := set_info_set_state c3_g0 [c3_r]

/-- C3 counterexample: with two nodes that share the name `"X"`, the
reachable state after `set_info_set([root])` has every information set a
singleton, yet `perfect_info()` returns `False`: the comparison is plain
list equality of two stably sorted lists, and with duplicate sort keys the
history-dependent order of `info_sets` need not match the freshly sorted
singleton list — it is not order-independent set-equality. -/
theorem c3_counterexample :
    Reachable c3_g0 c3_g1 ∧ (∀ s ∈ c3_g1.info_sets, ∃ x, s = [x]) ∧
    perfect_info c3_g1 = false := by
  refine ⟨@Reachable.set c3_g0 c3_g0 c3_g1 [c3_r] (Reachable.refl _)
    (by decide) (by decide) (by rfl), ?_, by decide⟩
  intro s hs
  have he : c3_g1.info_sets = [[c3_n], [c3_r]] := by decide
  rw [he] at hs
  rcases List.mem_cons.mp hs with h | h
  · exact ⟨c3_n, h⟩
  · exact ⟨c3_r, by simpa using h⟩

theorem perm_singletons :
    ∀ (l : List (List GNode)) (ns : List GNode),
      (∀ s ∈ l, ∃ x, s = [x]) →
      (∀ x : GNode, l.countP (fun s => s.contains x) = ns.countP (fun nd => nd == x)) →
      l.Perm (ns.map (fun nd => [nd]))
  | [], ns, _, hcnt => by
    cases ns with
    | nil => exact List.Perm.refl _
    | cons nd t =>
      exfalso
      have h := hcnt nd
      rw [List.countP_nil] at h
      have hpos : 0 < (nd :: t).countP (fun x => x == nd) :=
        List.countP_pos_iff.mpr ⟨nd, List.mem_cons_self nd t, beq_self_eq_true nd⟩
      omega
  | s :: t, ns, hsing, hcnt => by
    obtain ⟨x0, rfl⟩ := hsing s (List.mem_cons_self s t)
    have hx0 : x0 ∈ ns := by
      have h := hcnt x0
      have hpos : 0 < (([x0] : List GNode) :: t).countP (fun s => s.contains x0) :=
        List.countP_pos_iff.mpr ⟨[x0], List.mem_cons_self _ _,
          contains_iff_mem.mpr (by simp)⟩
      rw [h] at hpos
      obtain ⟨nd, hnd, hbeq⟩ := List.countP_pos_iff.mp hpos
      exact (eq_of_beq hbeq) ▸ hnd
    have hperm_ns : ns.Perm (x0 :: ns.erase x0) := perm_cons_erase_beq hx0
    have hih : t.Perm ((ns.erase x0).map (fun nd => [nd])) := by
      refine perm_singletons t (ns.erase x0)
        (fun s2 hs2 => hsing s2 (List.mem_cons_of_mem _ hs2)) ?_
      intro x
      have h := hcnt x
      rw [List.countP_cons] at h
      have h2 : ns.countP (fun nd => nd == x) =
          (ns.erase x0).countP (fun nd => nd == x) + (if (x0 == x) = true then 1 else 0) := by
        rw [hperm_ns.countP_eq, List.countP_cons]
      have h3 : ((([x0] : List GNode).contains x) = true) = ((x0 == x) = true) := by
        refine propext ?_
        simp only [contains_iff_mem, beq_iff_eq, List.mem_singleton]
        exact ⟨fun hh => hh.symm, fun hh => hh.symm⟩
      rw [h2] at h
      by_cases hbx : (x0 == x) = true
      · have hcx : (([x0] : List GNode).contains x) = true := h3 ▸ hbx
        simp only [hbx, hcx, if_true] at h
        omega
      · have hcx : ¬ (([x0] : List GNode).contains x) = true := fun hh => hbx (h3 ▸ hh)
        simp only [if_neg hbx, if_neg hcx] at h
        omega
    refine (hih.cons [x0]).trans ?_
    exact (hperm_ns.map (fun nd => [nd])).symm

/-- C3 amended: for games whose node names are pairwise distinct (default
naming guarantees this; user-assigned duplicate names break it), on every
reachable state `perfect_info()` returns `True` exactly when every
information set is a singleton. -/
theorem c3_amended_perfect_info (nodes : List GNode) (hnd : nodes.Nodup)
    (hnames : (nodes.map GNode.name).Nodup) (g : Game)
    (hr : Reachable (mkGame nodes) g) :
    perfect_info g = true ↔ ∀ s ∈ g.info_sets, ∃ x, s = [x] := by
  obtain ⟨⟨hcount, hsubset⟩, _, hsets, ⟨l0, hl0⟩⟩ := reachable_inv hnd hr
  have hn : g.nodes = nodes := reachable_nodes_eq hr
  constructor
  · intro hpi
    rw [perfect_info] at hpi
    have heq := eq_of_beq hpi
    intro s hs
    rw [heq] at hs
    have hs2 := (sort_info_sets_perm _).mem_iff.mp hs
    obtain ⟨nd, _, rfl⟩ := List.mem_map.mp hs2
    exact ⟨nd, rfl⟩
  · intro hsing
    have hperm : g.info_sets.Perm (g.nodes.map (fun nd => [nd])) := by
      refine perm_singletons g.info_sets g.nodes hsing ?_
      intro x
      by_cases hxn : x ∈ g.nodes
      · have h1 := hcount x hxn
        rw [count_sets_with] at h1
        rw [h1]
        have h2 : g.nodes.countP (fun nd => nd == x) = g.nodes.count x := rfl
        rw [h2, List.count_eq_one_of_mem (by assumption) hxn]
      · have h1 : g.info_sets.countP (fun s => s.contains x) = 0 :=
          List.countP_eq_zero.mpr (fun s hs hc =>
            hxn (hsubset s hs x (contains_iff_mem.mp hc)))
        have h2 : g.nodes.countP (fun nd => nd == x) = 0 :=
          List.countP_eq_zero.mpr (fun nd hnd hc => hxn ((eq_of_beq hc) ▸ hnd))
        rw [h1, h2]
    have hs1 : g.info_sets.Pairwise (fun a b => str_le (is_key a) (is_key b) = true) := by
      rw [hl0]
      exact sort_info_sets_sorted l0
    have hs2 : (sort_info_sets (g.nodes.map (fun nd => [nd]))).Pairwise
        (fun a b => str_le (is_key a) (is_key b) = true) := sort_info_sets_sorted _
    have hpermS : g.info_sets.Perm (sort_info_sets (g.nodes.map (fun nd => [nd]))) :=
      hperm.trans (sort_info_sets_perm _).symm
    have hknd : (g.info_sets.map is_key).Nodup := by
      have hmp := hperm.map is_key
      have hme : (g.nodes.map (fun nd => [nd])).map is_key = g.nodes.map GNode.name := by
        rw [List.map_map]
        rfl
      rw [hme] at hmp
      exact hmp.nodup_iff.mpr (hn ▸ hnames)
    have heq := eq_of_perm_of_key_sorted is_key g.info_sets _ hpermS hs1 hs2 hknd
    rw [perfect_info, heq]
    exact beq_self_eq_true _

/-- Witness for C3: the amended equivalence applied to a concrete game with
distinct node names. -/
theorem c3_amended_witness :
    perfect_info (mkGame c1_nodes) = true ↔
      ∀ s ∈ (mkGame c1_nodes).info_sets, ∃ x, s = [x] :=
  c3_amended_perfect_info c1_nodes (by decide) (by decide) (mkGame c1_nodes)
    (Reachable.refl _)

/-! ### C9: the information-set graph dictionary -/

def c9_root : GNode := ⟨50, "Root", pOne, [("A", 51), ("B", 500)]⟩

def c9_nm : GNode := ⟨51, "Node 1", pOne, [("A", 501), ("B", 502)]⟩

def c9_g0 : Game := mkGame [c9_root, c9_nm]

def c9_g1 : Game := set_info_set_state c9_g0 [c9_root, c9_nm]

def c9_A : List GNode := [c9_nm, c9_root]

/-- C9 counterexample: grouping a node with its own child (same player,
same action labels) is accepted by `set_info_set`, producing a reachable
state whose single information set `A` contains a node with a child in `A`;
the claim then demands the edge `A → A`, but the dictionary never records
self-edges (the source skips `info_set_2 == info_set_1`) and here is empty. -/
theorem c9_counterexample :
    Reachable c9_g0 c9_g1 ∧ c9_A ∈ c9_g1.info_sets ∧
    (∃ nd ∈ c9_A, ∃ kid ∈ nd.children, member_by_id kid c9_A = true) ∧
    info_set_graph_has_edge c9_g1 c9_A c9_A = false := by
  refine ⟨@Reachable.set c9_g0 c9_g0 c9_g1 [c9_root, c9_nm] (Reachable.refl _)
    (by decide) (by decide) (by rfl), by decide, ?_, by decide⟩
  exact ⟨c9_root, by decide, 51, by decide, by decide⟩

/-- C9 amended: for *distinct* information sets `A ≠ B` of the current
collection, the dictionary records a directed edge `A → B` exactly when
some node of `A` has a child belonging to `B`; self-edges are never
recorded. -/
theorem c9_amended_edge_characterisation (g : Game) (A B : List GNode)
    (hA : A ∈ g.info_sets) (hB : B ∈ g.info_sets) (hne : A ≠ B) :
    info_set_graph_has_edge g A B = true ↔
      ∃ nd ∈ A, ∃ kid ∈ nd.children, member_by_id kid B = true := by
  have htgt : ∀ is1 : List GNode, ∀ C ∈ g.info_sets.filter
      (fun is2 => is2 != is1 && edge_between is1 is2), C ∈ g.info_sets ∧
      (C != is1) = true ∧ edge_between is1 C = true := by
    intro is1 C hC
    have h2 := List.mem_filter.mp hC
    refine ⟨h2.1, ?_, ?_⟩
    · exact (Bool.and_eq_true _ _ ▸ h2.2).1
    · exact (Bool.and_eq_true _ _ ▸ h2.2).2
  constructor
  · intro hedge
    rw [info_set_graph_has_edge] at hedge
    cases hfind : (grow_info_set_graph_dictionary g).find? (fun pr => pr.1 == A) with
    | none => rw [hfind] at hedge; exact absurd hedge (by simp)
    | some pr =>
      rw [hfind] at hedge
      have hpr : pr ∈ grow_info_set_graph_dictionary g := List.mem_of_find?_eq_some hfind
      have hkey := List.find?_some hfind
      have hkey2 : pr.1 = A := eq_of_beq hkey
      rw [grow_info_set_graph_dictionary] at hpr
      have hpr2 := (List.mem_filter.mp hpr).1
      obtain ⟨is1, his1, heq⟩ := List.mem_map.mp hpr2
      have his1A : is1 = A := by
        have := congrArg Prod.fst heq
        simpa [hkey2] using this
      have hsnd : pr.2 = g.info_sets.filter (fun is2 => is2 != A && edge_between A is2) := by
        have := congrArg Prod.snd heq
        rw [his1A] at this
        exact this.symm
      have hBmem : B ∈ g.info_sets.filter (fun is2 => is2 != A && edge_between A is2) := by
        rw [← hsnd]
        exact contains_iff_mem.mp hedge
      have hed := (htgt A B hBmem).2.2
      rw [edge_between] at hed
      obtain ⟨nd, hnd, h3⟩ := List.any_eq_true.mp hed
      obtain ⟨kid, hkid, h4⟩ := List.any_eq_true.mp h3
      exact ⟨nd, hnd, kid, hkid, h4⟩
  · rintro ⟨nd, hnd, kid, hkid, hmem⟩
    have hed : edge_between A B = true :=
      List.any_eq_true.mpr ⟨nd, hnd, List.any_eq_true.mpr ⟨kid, hkid, hmem⟩⟩
    have hbne : (B != A) = true := by
      have : (B == A) = false :=
        Bool.eq_false_iff.mpr (fun hb => hne (eq_of_beq hb).symm)
      simp [bne, this]
    have hBf : B ∈ g.info_sets.filter (fun is2 => is2 != A && edge_between A is2) :=
      List.mem_filter.mpr ⟨hB, by rw [Bool.and_eq_true, hbne, hed]; exact ⟨rfl, rfl⟩⟩
    have hne2 : (g.info_sets.filter (fun is2 => is2 != A && edge_between A is2)).isEmpty
        = false := by
      cases hl : g.info_sets.filter (fun is2 => is2 != A && edge_between A is2) with
      | nil => rw [hl] at hBf; exact absurd hBf (List.not_mem_nil B)
      | cons c cs => rfl
    have hentry : (A, g.info_sets.filter (fun is2 => is2 != A && edge_between A is2)) ∈
        grow_info_set_graph_dictionary g := by
      rw [grow_info_set_graph_dictionary]
      refine List.mem_filter.mpr ⟨List.mem_map.mpr ⟨A, hA, rfl⟩, ?_⟩
      simp [hne2]
    rw [info_set_graph_has_edge]
    cases hfind : (grow_info_set_graph_dictionary g).find? (fun pr => pr.1 == A) with
    | none =>
      exfalso
      have := List.find?_eq_none.mp hfind _ hentry
      exact this (beq_self_eq_true A)
    | some pr =>
      have hkey := List.find?_some hfind
      have hkey2 : pr.1 = A := eq_of_beq hkey
      have hpr : pr ∈ grow_info_set_graph_dictionary g := List.mem_of_find?_eq_some hfind
      rw [grow_info_set_graph_dictionary] at hpr
      obtain ⟨is1, his1, heq⟩ := List.mem_map.mp (List.mem_filter.mp hpr).1
      have his1A : is1 = A := by
        have := congrArg Prod.fst heq
        simpa [hkey2] using this
      have hsnd : pr.2 = g.info_sets.filter (fun is2 => is2 != A && edge_between A is2) := by
        have := congrArg Prod.snd heq
        rw [his1A] at this
        exact this.symm
      show pr.2.contains B = true
      rw [hsnd]
      exact contains_iff_mem.mpr hBf

/-- Witness for C9: the amended characterisation evaluated on a concrete
game, in both the edge and the no-edge direction. -/
theorem c9_amended_witness :
    info_set_graph_has_edge (mkGame c1_nodes) [c1_root] [c1_na] = true ∧
    info_set_graph_has_edge (mkGame c1_nodes) [c1_na] [c1_nb] = false := by
  constructor
  · exact (c9_amended_edge_characterisation (mkGame c1_nodes) [c1_root] [c1_na]
      (by decide) (by decide) (by decide)).mpr ⟨c1_root, by decide, 40, by decide, by decide⟩
  · decide

/-! ### C6: tree validation (`_grow_tree` / `_grow_tree_dictionary`)

The candidate root is an arbitrary object graph of `EFG_Node`s and
`EFG_Leaf`s; entities are referenced by id through an environment.  Only the
fields the traversal inspects are modelled: whether the entity is a leaf,
whether `_is_complete()` holds, whether `_player_check()` passes, and the
ordered children list. -/

structure Entity where
  isLeaf : Bool
  complete : Bool
  playerOk : Bool
  children : List Nat

/-- The body of the `for child in checking.children` loop of
`_grow_tree_dictionary`: leaves are recorded in `checked`; non-leaf children
are checked for completeness (raise) and player validity (raise), pushed on
`to_check` and recorded in `checked`. -/
def check_children (env : Nat → Entity) :
    List Nat → List Nat → List Nat → Except String (List Nat × List Nat)
  | [], tc, ck => .ok (tc, ck)
  | c :: cs, tc, ck =>
    if (env c).isLeaf then check_children env cs tc (ck ++ [c])
    else if (env c).complete then
      if (env c).playerOk then check_children env cs (tc ++ [c]) (ck ++ [c])
      else .error "Cannot assign a non Player as a player to a Node."
    else .error "One or more of the Nodes in the tree are not complete."

/-- The `while to_check:` loop of `_grow_tree_dictionary`: pop the last
element, process its children, repeat.  Python iterates without bound; the
fuel makes the model total, and a diverging run (as produced by a cyclic
object graph) returns the out-of-fuel error for every fuel value. -/
def grow_loop (env : Nat → Entity) : Nat → List Nat → List Nat → Except String (List Nat)
  | _, [], ck => .ok ck
  | 0, _ :: _, _ => .error "loop limit reached"
  | fuel + 1, t :: ts, ck =>
    match check_children env
        (env ((t :: ts).getLast (List.cons_ne_nil t ts))).children
        ((t :: ts).dropLast) ck with
    | .error e => .error e
    | .ok st => grow_loop env fuel st.1 st.2

/-- The key set of the dictionary
`d = {node: node.children for node in checked if not leaf}; d[root] = ...`:
the root plus every non-leaf entity recorded in `checked` (a Python dict
key set; order is irrelevant to the graph built from it). -/
def grow_keys (env : Nat → Entity) (root : Nat) (ck : List Nat) : List Nat :=
  (root :: ck.filter (fun x => !(env x).isLeaf)).dedup

/-- Vertices of the Sage `Graph(d)`: dict keys and all listed children. -/
def vertex_list (env : Nat → Entity) (keys : List Nat) : List Nat :=
  (keys ++ keys.flatMap (fun k => (env k).children)).dedup

/-- An undirected edge as an ordered pair (`Graph` is simple and
undirected, so `{u, v}` is recorded once). -/
def norm_pair (a b : Nat) : Nat × Nat := if a ≤ b then (a, b) else (b, a)

/-- Edges of the Sage `Graph(d)`: one undirected edge per parent/child
entry of the adjacency dict, deduplicated. -/
def edge_list (env : Nat → Entity) (keys : List Nat) : List (Nat × Nat) :=
  (keys.flatMap (fun k => (env k).children.map (fun c => norm_pair k c))).dedup

/-- One step of neighbourhood expansion over the edge list. -/
def neighbors_step (E : List (Nat × Nat)) (S : List Nat) : List Nat :=
  (S ++ E.flatMap (fun e =>
    if e.1 ∈ S then [e.2] else if e.2 ∈ S then [e.1] else [])).dedup

/-- Iterated neighbourhood expansion. -/
def reach_set (E : List (Nat × Nat)) (S : List Nat) : Nat → List Nat
  | 0 => S
  | n + 1 => neighbors_step E (reach_set E S n)

/-- Graph connectivity, by closing the neighbourhood of the first vertex. -/
def is_connected (V : List Nat) (E : List (Nat × Nat)) : Bool :=
  match V with
  | [] => true
  | v :: _ => V.all (fun u => (reach_set E [v] V.length).contains u)

/-- Sage's `Graph.is_tree()`: a nonempty connected graph whose edge count
is one less than its vertex count (for a simple connected graph this is
exactly acyclicity). -/
def is_tree (V : List Nat) (E : List (Nat × Nat)) : Bool :=
  !V.isEmpty && is_connected V E && decide (E.length = V.length - 1)

/-- `ExtensiveFormGame._grow_tree`: run the traversal, build the graph and
test the tree property, raising `TypeError` when it fails.  Returns the
sorted-set of dictionary keys (standing for `(tree, dictionary, nodes)`). -/
def grow_tree (env : Nat → Entity) (root : Nat) (fuel : Nat) : Except String (List Nat) :=
  match grow_loop env fuel [root] [] with
  | .error e => .error e
  | .ok ck =>
    let keys := grow_keys env root ck
    if is_tree (vertex_list env keys) (edge_list env keys) then .ok keys
    else .error "Relationship between nodes does not correspond to a tree."

theorem check_children_ok (env : Nat → Entity) :
    ∀ (cs tc ck tc2 ck2 : List Nat),
      check_children env cs tc ck = .ok (tc2, ck2) →
      tc2 = tc ++ cs.filter (fun c => !(env c).isLeaf) ∧ ck2 = ck ++ cs
  | [], tc, ck, tc2, ck2 => by
    intro h
    rw [check_children] at h
    injection h with h2
    injection h2 with h3 h4
    subst h3
    subst h4
    simp
  | c :: cs, tc, ck, tc2, ck2 => by
    intro h
    rw [check_children] at h
    by_cases h1 : (env c).isLeaf = true
    · rw [if_pos h1] at h
      obtain ⟨e1, e2⟩ := check_children_ok env cs tc (ck ++ [c]) tc2 ck2 h
      refine ⟨?_, ?_⟩
      · rw [e1, List.filter_cons_of_neg (by simp [h1])]
      · rw [e2, List.append_assoc]
        rfl
    · rw [if_neg h1] at h
      by_cases h2 : (env c).complete = true
      · rw [if_pos h2] at h
        by_cases h3 : (env c).playerOk = true
        · rw [if_pos h3] at h
          obtain ⟨e1, e2⟩ := check_children_ok env cs (tc ++ [c]) (ck ++ [c]) tc2 ck2 h
          have h1f : (env c).isLeaf = false := Bool.eq_false_iff.mpr h1
          refine ⟨?_, ?_⟩
          · rw [e1, List.filter_cons_of_pos (by simp [h1f]), List.append_assoc]
            rfl
          · rw [e2, List.append_assoc]
            rfl
        · rw [if_neg h3] at h
          exact absurd h (by simp)
      · rw [if_neg h2] at h
        exact absurd h (by simp)

theorem grow_loop_subset (env : Nat → Entity) :
    ∀ (fuel : Nat) (tc ck ckf : List Nat), grow_loop env fuel tc ck = .ok ckf →
      ∀ x ∈ ck, x ∈ ckf := by
  intro fuel
  induction fuel with
  | zero =>
    intro tc ck ckf hok x hx
    cases tc with
    | nil =>
      rw [grow_loop] at hok
      injection hok with h
      exact h ▸ hx
    | cons t ts =>
      rw [grow_loop] at hok
      exact absurd hok (by simp)
  | succ f ih =>
    intro tc ck ckf hok x hx
    cases tc with
    | nil =>
      rw [grow_loop] at hok
      injection hok with h
      exact h ▸ hx
    | cons t ts =>
      rw [grow_loop] at hok
      cases hcc : check_children env
          (env ((t :: ts).getLast (List.cons_ne_nil t ts))).children
          ((t :: ts).dropLast) ck with
      | error e =>
        rw [hcc] at hok
        exact absurd hok (by simp)
      | ok st =>
        obtain ⟨tc2, ck2⟩ := st
        rw [hcc] at hok
        obtain ⟨e1, e2⟩ := check_children_ok env _ _ _ tc2 ck2 hcc
        exact ih tc2 ck2 ckf hok x (by rw [e2]; exact List.mem_append_left _ hx)

theorem grow_loop_no_mutual (env : Nat → Entity) :
    ∀ (fuel : Nat) (tc ck ckf : List Nat),
      grow_loop env fuel tc ck = .ok ckf →
      ∀ A B : Nat, (A ∈ tc ∨ (A ∈ ckf ∧ A ∉ ck)) →
        (env A).isLeaf = false → (env B).isLeaf = false →
        B ∈ (env A).children → A ∈ (env B).children → False := by
  intro fuel
  induction fuel with
  | zero =>
    intro tc ck ckf hok A B hA hAn hBn hBc hAc
    cases tc with
    | nil =>
      rw [grow_loop] at hok
      injection hok with h
      rcases hA with h2 | ⟨h2, h3⟩
      · exact absurd h2 (List.not_mem_nil A)
      · exact h3 (h ▸ h2)
    | cons t ts =>
      rw [grow_loop] at hok
      exact absurd hok (by simp)
  | succ f ih =>
    intro tc ck ckf hok A B hA hAn hBn hBc hAc
    cases tc with
    | nil =>
      rw [grow_loop] at hok
      injection hok with h
      rcases hA with h2 | ⟨h2, h3⟩
      · exact absurd h2 (List.not_mem_nil A)
      · exact h3 (h ▸ h2)
    | cons t ts =>
      rw [grow_loop] at hok
      cases hcc : check_children env
          (env ((t :: ts).getLast (List.cons_ne_nil t ts))).children
          ((t :: ts).dropLast) ck with
      | error e =>
        rw [hcc] at hok
        exact absurd hok (by simp)
      | ok st =>
        obtain ⟨tc2, ck2⟩ := st
        rw [hcc] at hok
        obtain ⟨e1, e2⟩ := check_children_ok env _ _ _ tc2 ck2 hcc
        rcases hA with hAtc | ⟨hAf, hAck⟩
        · have hdec : A ∈ (t :: ts).dropLast ∨
              A = (t :: ts).getLast (List.cons_ne_nil t ts) := by
            rw [← List.dropLast_append_getLast (List.cons_ne_nil t ts)] at hAtc
            rcases List.mem_append.mp hAtc with h2 | h2
            · exact Or.inl h2
            · exact Or.inr (by simpa using h2)
          rcases hdec with hd | hd
          · exact ih tc2 ck2 ckf hok A B
              (Or.inl (by rw [e1]; exact List.mem_append_left _ hd)) hAn hBn hBc hAc
          · have hBc2 : B ∈ (env ((t :: ts).getLast (List.cons_ne_nil t ts))).children := by
              rw [← hd]
              exact hBc
            have hBtc2 : B ∈ tc2 := by
              rw [e1]
              exact List.mem_append_right _ (List.mem_filter.mpr ⟨hBc2, by simp [hBn]⟩)
            exact ih tc2 ck2 ckf hok B A (Or.inl hBtc2) hBn hAn hAc hBc
        · by_cases hAck2 : A ∈ ck2
          · have hAchild : A ∈ (env ((t :: ts).getLast (List.cons_ne_nil t ts))).children := by
              rw [e2] at hAck2
              rcases List.mem_append.mp hAck2 with h2 | h2
              · exact absurd h2 hAck
              · exact h2
            have hAtc2 : A ∈ tc2 := by
              rw [e1]
              exact List.mem_append_right _ (List.mem_filter.mpr ⟨hAchild, by simp [hAn]⟩)
            exact ih tc2 ck2 ckf hok A B (Or.inl hAtc2) hAn hBn hBc hAc
          · exact ih tc2 ck2 ckf hok A B (Or.inr ⟨hAf, hAck2⟩) hAn hBn hBc hAc

theorem grow_loop_provenance (env : Nat → Entity) :
    ∀ (fuel : Nat) (tc ck ckf : List Nat),
      grow_loop env fuel tc ck = .ok ckf →
      (∀ x ∈ tc, (env x).isLeaf = false) →
      ∀ v ∈ ckf, v ∈ ck ∨
        ∃ k, (k ∈ tc ∨ k ∈ ckf) ∧ (env k).isLeaf = false ∧ v ∈ (env k).children := by
  intro fuel
  induction fuel with
  | zero =>
    intro tc ck ckf hok htc v hv
    cases tc with
    | nil =>
      rw [grow_loop] at hok
      injection hok with h
      exact Or.inl (h ▸ hv)
    | cons t ts =>
      rw [grow_loop] at hok
      exact absurd hok (by simp)
  | succ f ih =>
    intro tc ck ckf hok htc v hv
    cases tc with
    | nil =>
      rw [grow_loop] at hok
      injection hok with h
      exact Or.inl (h ▸ hv)
    | cons t ts =>
      rw [grow_loop] at hok
      cases hcc : check_children env
          (env ((t :: ts).getLast (List.cons_ne_nil t ts))).children
          ((t :: ts).dropLast) ck with
      | error e =>
        rw [hcc] at hok
        exact absurd hok (by simp)
      | ok st =>
        obtain ⟨tc2, ck2⟩ := st
        rw [hcc] at hok
        obtain ⟨e1, e2⟩ := check_children_ok env _ _ _ tc2 ck2 hcc
        have hyn : (env ((t :: ts).getLast (List.cons_ne_nil t ts))).isLeaf = false :=
          htc _ (List.getLast_mem (List.cons_ne_nil t ts))
        have htc2 : ∀ x ∈ tc2, (env x).isLeaf = false := by
          intro x hx
          rw [e1] at hx
          rcases List.mem_append.mp hx with h2 | h2
          · exact htc x (List.dropLast_subset _ h2)
          · have := (List.mem_filter.mp h2).2
            simpa using this
        rcases ih tc2 ck2 ckf hok htc2 v hv with hv2 | ⟨k, hk12, hkn, hvc⟩
        · rw [e2] at hv2
          rcases List.mem_append.mp hv2 with h2 | h2
          · exact Or.inl h2
          · exact Or.inr ⟨(t :: ts).getLast (List.cons_ne_nil t ts),
              Or.inl (List.getLast_mem _), hyn, h2⟩
        · rcases hk12 with hk | hk
          · rw [e1] at hk
            rcases List.mem_append.mp hk with h2 | h2
            · exact Or.inr ⟨k, Or.inl (List.dropLast_subset _ h2), hkn, hvc⟩
            · have hkck2 : k ∈ ck2 := by
                rw [e2]
                exact List.mem_append_right _ (List.mem_filter.mp h2).1
              exact Or.inr ⟨k, Or.inr (grow_loop_subset env f tc2 ck2 ckf hok k hkck2),
                hkn, hvc⟩
          · exact Or.inr ⟨k, Or.inr hk, hkn, hvc⟩

theorem mem_grow_keys {env : Nat → Entity} {root : Nat} {ck : List Nat} {k : Nat} :
    k ∈ grow_keys env root ck ↔ k = root ∨ (k ∈ ck ∧ (env k).isLeaf = false) := by
  simp [grow_keys, List.mem_dedup, List.mem_filter, List.mem_cons]

theorem mem_vertex_list {env : Nat → Entity} {keys : List Nat} {v : Nat} :
    v ∈ vertex_list env keys ↔ v ∈ keys ∨ ∃ k ∈ keys, v ∈ (env k).children := by
  simp [vertex_list, List.mem_dedup, List.mem_append, List.mem_flatMap]

theorem mem_edge_list {env : Nat → Entity} {keys : List Nat} {k c : Nat}
    (hk : k ∈ keys) (hc : c ∈ (env k).children) :
    norm_pair k c ∈ edge_list env keys := by
  rw [edge_list, List.mem_dedup]
  exact List.mem_flatMap.mpr ⟨k, hk, List.mem_map_of_mem _ hc⟩

theorem norm_pair_eq {a b c d : Nat} (h : norm_pair a b = norm_pair c d) :
    (a = c ∧ b = d) ∨ (a = d ∧ b = c) := by
  rw [norm_pair, norm_pair] at h
  split_ifs at h with h1 h2 h2
  · injection h with e1 e2
    exact Or.inl ⟨e1, e2⟩
  · injection h with e1 e2
    exact Or.inr ⟨e1, e2⟩
  · injection h with e1 e2
    exact Or.inr ⟨e2, e1⟩
  · injection h with e1 e2
    exact Or.inl ⟨e2, e1⟩

/-- The parent lookup used by the edge-counting argument: the first key of
the adjacency dict listing `v` among its children. -/
def first_parent (env : Nat → Entity) (keys : List Nat) (v : Nat) : Nat :=
  (keys.find? (fun k => (env k).children.contains v)).getD 0

theorem first_parent_spec {env : Nat → Entity} {keys : List Nat} {v : Nat}
    (h : ∃ k ∈ keys, v ∈ (env k).children) :
    first_parent env keys v ∈ keys ∧ v ∈ (env (first_parent env keys v)).children := by
  obtain ⟨k0, hk0, hv0⟩ := h
  cases hf : keys.find? (fun k => (env k).children.contains v) with
  | none =>
    exfalso
    exact (List.find?_eq_none.mp hf k0 hk0) (contains_iff_mem.mpr hv0)
  | some k =>
    have h1 := List.mem_of_find?_eq_some hf
    have h2 := List.find?_some hf
    rw [first_parent, hf]
    exact ⟨h1, contains_iff_mem.mp h2⟩

theorem grow_tree_eq (env : Nat → Entity) (root fuel : Nat) (ck : List Nat)
    (hok : grow_loop env fuel [root] [] = .ok ck) :
    grow_tree env root fuel =
      if is_tree (vertex_list env (grow_keys env root ck))
          (edge_list env (grow_keys env root ck))
      then .ok (grow_keys env root ck)
      else .error "Relationship between nodes does not correspond to a tree." := by
  rw [grow_tree, hok]

/-- C6: when the traversal from the candidate root succeeds (so no
incomplete-node or invalid-player raise happened — the duplicated leaf is
not caught at assignment time or during traversal), but one leaf `L` is
listed as a child of two distinct reachable nodes `P1 ≠ P2`, the graph
check fails and `_grow_tree` raises the not-a-tree `TypeError`: the
undirected graph then has at least as many edges as vertices. -/
theorem c6_shared_leaf_not_a_tree (env : Nat → Entity) (root fuel : Nat) (ck : List Nat)
    (L P1 P2 : Nat)
    (hok : grow_loop env fuel [root] [] = .ok ck)
    (hrootn : (env root).isLeaf = false)
    (hLleaf : (env L).isLeaf = true)
    (hP : P1 ≠ P2)
    (hP1 : P1 ∈ grow_keys env root ck) (hP2 : P2 ∈ grow_keys env root ck)
    (hc1 : L ∈ (env P1).children) (hc2 : L ∈ (env P2).children) :
    grow_tree env root fuel =
      .error "Relationship between nodes does not correspond to a tree." := by
  set keys := grow_keys env root ck with hkeys
  set V := vertex_list env keys with hV
  set E := edge_list env keys with hE
  have hkn : ∀ k ∈ keys, (env k).isLeaf = false := by
    intro k hk
    rcases mem_grow_keys.mp hk with h | ⟨_, h⟩
    · exact h ▸ hrootn
    · exact h
  have hkeysA : ∀ A ∈ keys, A ∈ [root] ∨ (A ∈ ck ∧ A ∉ ([] : List Nat)) := by
    intro A hA
    rcases mem_grow_keys.mp hA with h | ⟨h, _⟩
    · exact Or.inl (h ▸ List.mem_singleton_self root)
    · exact Or.inr ⟨h, List.not_mem_nil A⟩
  have hmut : ∀ A B : Nat, A ∈ keys → (env B).isLeaf = false →
      B ∈ (env A).children → A ∈ (env B).children → False := by
    intro A B hA hBn hBc hAc
    exact grow_loop_no_mutual env fuel [root] [] ck hok A B (hkeysA A hA)
      (hkn A hA) hBn hBc hAc
  have hprov : ∀ v ∈ ck, ∃ k ∈ keys, v ∈ (env k).children := by
    intro v hv
    rcases grow_loop_provenance env fuel [root] [] ck hok
        (by
          intro x hx
          rw [List.mem_singleton] at hx
          rw [hx]
          exact hrootn) v hv with h | ⟨k, hk12, hkn2, hvc⟩
    · exact absurd h (List.not_mem_nil v)
    · refine ⟨k, ?_, hvc⟩
      rcases hk12 with h2 | h2
      · exact mem_grow_keys.mpr (Or.inl (by simpa using h2))
      · exact mem_grow_keys.mpr (Or.inr ⟨h2, hkn2⟩)
  have hpar : ∀ v ∈ V, v ≠ root → ∃ k ∈ keys, v ∈ (env k).children := by
    intro v hv hvroot
    rcases mem_vertex_list.mp hv with h | h
    · rcases mem_grow_keys.mp h with h2 | ⟨h2, _⟩
      · exact absurd h2 hvroot
      · exact hprov v h2
    · exact h
  have hrootV : root ∈ V := mem_vertex_list.mpr (Or.inl (mem_grow_keys.mpr (Or.inl rfl)))
  have hLV : L ∈ V := mem_vertex_list.mpr (Or.inr ⟨P1, hP1, hc1⟩)
  have hLroot : L ≠ root := by
    intro he
    rw [he, hrootn] at hLleaf
    exact Bool.false_ne_true hLleaf
  set p := first_parent env keys with hp
  set S := V.toFinset.erase root with hS
  set f : Nat → Nat × Nat := fun v => norm_pair (p v) v with hf
  have hfS : ∀ v ∈ S, f v ∈ E.toFinset := by
    intro v hv
    obtain ⟨hvne, hvV⟩ := Finset.mem_erase.mp hv
    have hspec := first_parent_spec (hpar v (List.mem_toFinset.mp hvV) hvne)
    exact List.mem_toFinset.mpr (mem_edge_list hspec.1 hspec.2)
  have hinj : Set.InjOn f ↑S := by
    intro u hu v hv hfe
    obtain ⟨hune, huV⟩ := Finset.mem_erase.mp (Finset.mem_coe.mp hu)
    obtain ⟨hvne, hvV⟩ := Finset.mem_erase.mp (Finset.mem_coe.mp hv)
    have hup := first_parent_spec (hpar u (List.mem_toFinset.mp huV) hune)
    have hvp := first_parent_spec (hpar v (List.mem_toFinset.mp hvV) hvne)
    rcases norm_pair_eq hfe with ⟨_, h2⟩ | ⟨h1, h2⟩
    · exact h2
    · have hukey : u ∈ keys := h2 ▸ hvp.1
      have hvkey : v ∈ keys := h1 ▸ hup.1
      have hvcu : v ∈ (env u).children := by
        rw [h2]
        exact hvp.2
      have hucv : u ∈ (env v).children := by
        rw [← h1]
        exact hup.2
      exact (hmut u v hukey (hkn v hvkey) hvcu hucv).elim
  set P' := if p L = P1 then P2 else P1 with hP'
  have hP'keys : P' ∈ keys := by
    rw [hP']
    split_ifs
    · exact hP2
    · exact hP1
  have hP'c : L ∈ (env P').children := by
    rw [hP']
    split_ifs
    · exact hc2
    · exact hc1
  have hP'ne : P' ≠ p L := by
    rw [hP']
    split_ifs with h
    · rw [h]
      exact fun he => hP he.symm
    · exact fun he => h he.symm
  have hLS : L ∈ S := Finset.mem_erase.mpr ⟨hLroot, List.mem_toFinset.mpr hLV⟩
  set e' := norm_pair P' L with he'
  have he'E : e' ∈ E.toFinset := List.mem_toFinset.mpr (mem_edge_list hP'keys hP'c)
  have he'img : e' ∉ S.image f := by
    intro hmem
    obtain ⟨v, hvS, hfv⟩ := Finset.mem_image.mp hmem
    obtain ⟨hvne, hvV⟩ := Finset.mem_erase.mp hvS
    have hvp := first_parent_spec (hpar v (List.mem_toFinset.mp hvV) hvne)
    rcases norm_pair_eq hfv with ⟨h1, h2⟩ | ⟨h1, h2⟩
    · subst h2
      exact hP'ne h1.symm
    · have hLk : L ∈ keys := h1 ▸ hvp.1
      have hLn := hkn L hLk
      rw [hLleaf] at hLn
      exact Bool.false_ne_true hLn.symm
  have hsub : insert e' (S.image f) ⊆ E.toFinset := by
    intro x hx
    rcases Finset.mem_insert.mp hx with h | h
    · exact h ▸ he'E
    · obtain ⟨v, hvS, hfv⟩ := Finset.mem_image.mp h
      exact hfv ▸ hfS v hvS
  have hcard1 : (insert e' (S.image f)).card = S.card + 1 := by
    rw [Finset.card_insert_of_not_mem he'img, Finset.card_image_of_injOn hinj]
  have hScard : S.card = V.toFinset.card - 1 :=
    Finset.card_erase_of_mem (List.mem_toFinset.mpr hrootV)
  have hVpos : 0 < V.toFinset.card :=
    Finset.card_pos.mpr ⟨root, List.mem_toFinset.mpr hrootV⟩
  have hEge : V.toFinset.card ≤ E.toFinset.card := by
    have hc := Finset.card_le_card hsub
    rw [hcard1, hScard] at hc
    omega
  have hVnd : V.Nodup := by
    rw [hV, vertex_list]
    exact List.nodup_dedup _
  have hEnd : E.Nodup := by
    rw [hE, edge_list]
    exact List.nodup_dedup _
  have hlen : ¬ (E.length = V.length - 1) := by
    rw [← List.toFinset_card_of_nodup hVnd, ← List.toFinset_card_of_nodup hEnd]
    omega
  have htree : is_tree V E = false := by
    rw [is_tree, decide_eq_false hlen]
    simp
  have hfin : is_tree (vertex_list env (grow_keys env root ck))
      (edge_list env (grow_keys env root ck)) = false := by
    rw [← hkeys, ← hV, ← hE]
    exact htree
  rw [grow_tree_eq env root fuel ck hok,
    if_neg (by rw [hfin]; exact Bool.false_ne_true)]

/-- A concrete candidate root for C6: entity 0 is the root with the two
complete nodes 1 and 2 as children, and both list leaf 3 as their child. -/
def c6_env : Nat → Entity := fun n =>
  match n with
  | 0 => ⟨false, true, true, [1, 2]⟩
  | 1 => ⟨false, true, true, [3]⟩
  | 2 => ⟨false, true, true, [3]⟩
  | _ => ⟨true, true, true, []⟩

/-- Witness for C6: the shared-leaf configuration above passes the
traversal but fails the tree check. -/
theorem c6_witness :
    grow_tree c6_env 0 10 =
      .error "Relationship between nodes does not correspond to a tree." :=
  c6_shared_leaf_not_a_tree c6_env 0 10 [1, 2, 3, 3] 3 1 2 (by rfl) rfl rfl
    (by decide) (by decide) (by decide) (by decide) (by decide)
